import Mathlib

/-!
# Formal model of the parser generator's table-generation engine

This file embeds, as executable Lean definitions, the core algorithms of the
repository's table-generation engine:

* the LR(1) action table with precedence-based conflict resolution
  (`State.addAction` in `src/grammar/automaton.ts`),
* the FIRST-set fixpoint (`computeFirst`),
* item-set closure (`closure`),
* the LALR collapse loop (`collapseAutomaton`, `markConflicts`),
* rule inlining (`inlineRules` in `src/build.ts`),
* the forced-reduce selection in `Builder.finishState`,
* the zero-length-token check in `TokenSet.tokenizer`,
* character-range inversion (`invertRanges`).

Theorems about these definitions settle the specification's claims.
JavaScript semantics (truthiness of `||`, operator precedence, in-place
array mutation, early returns from labelled loops) are translated exactly.
-/

namespace Gen

/-! ## Data model of `src/grammar/grammar.ts` (old automaton module)

`Term`, `Precedence` and `Rule` as defined in `src/grammar/grammar.ts`.
Term identity in JavaScript is object identity; terms are modelled
structurally, which coincides with identity as long as names are unique
(the builder guarantees unique names). -/

inductive Assoc
  | left
  | right
deriving DecidableEq, Repr

structure Precedence where
  associativity : Option Assoc
  group : String
  precedence : Int
deriving DecidableEq, Repr

/-- Flag bits from `grammar.ts`: TERMINAL = 1, EOF = 2, ERROR = 4, PROGRAM = 8. -/
structure GTerm where
  name : String
  flags : Nat
  tag : Option String := none
deriving DecidableEq, Repr

def GTerm.terminal (t : GTerm) : Bool := t.flags &&& 1 != 0

/-- JavaScript `a || b` on numbers: the first operand unless it is zero. -/
def jsOr (a b : Int) : Int := if a ≠ 0 then a else b

/-- Lexicographic character-list comparison (JavaScript's `<` on strings). -/
def charsLt : List Char → List Char → Bool
  | [], [] => false
  | [], _ :: _ => true
  | _ :: _, [] => false
  | c :: cs, d :: ds =>
    if c.toNat < d.toNat then true
    else if d.toNat < c.toNat then false
    else charsLt cs ds

def strLt (a b : String) : Bool := charsLt a.data b.data

/-- `Term.cmp`: identity gives 0, otherwise the name ternary.  (The
`|| this.flags - other.flags` in the source is dead code, since the ternary
always produces a truthy ±1.) -/
def GTerm.cmp (a b : GTerm) : Int :=
  if a = b then 0 else if strLt a.name b.name then -1 else 1

/-- `Precedence.cmp`: by associativity string, then group, then level. -/
def cmpStr (a b : String) : Int := if a = b then 0 else if strLt a b then -1 else 1

def Assoc.str : Option Assoc → String
  | none => ""
  | some .left => "left"
  | some .right => "right"

def Precedence.cmp (a b : Precedence) : Int :=
  jsOr (cmpStr (Assoc.str a.associativity) (Assoc.str b.associativity))
    (jsOr (cmpStr a.group b.group) (a.precedence - b.precedence))

def Precedence.eqP (a b : Precedence) : Bool :=
  a.associativity == b.associativity && a.group == b.group && a.precedence == b.precedence

/-- A grammar rule: lhs term, parts, and the per-position precedence lists. -/
structure GRule where
  name : GTerm
  parts : List GTerm
  precedence : List (List Precedence) := []
deriving DecidableEq, Repr

def GRule.precAt (r : GRule) (pos : Nat) : List Precedence :=
  r.precedence.getD pos []

/-- `Rule.rulePrec`: union (in order, deduplicated by `eq`) of all
per-position precedences. -/
def GRule.rulePrec (r : GRule) : List Precedence :=
  r.precedence.foldl
    (fun acc ps => ps.foldl (fun acc p => if acc.any (fun q => p.eqP q) then acc else acc ++ [p]) acc)
    []

/-- First non-zero comparison result of a pairwise comparison, as
`parts.reduce((r, s, i) => r || s.cmp(...), 0)` computes it when the lists
have equal length. -/
def firstNonzero : List Int → Int
  | [] => 0
  | x :: xs => jsOr x (firstNonzero xs)

def GRule.cmp (a b : GRule) : Int :=
  jsOr (GTerm.cmp a.name b.name) <|
    jsOr ((a.parts.length : Int) - b.parts.length) <|
      jsOr (firstNonzero ((a.parts.zip b.parts).map fun (s, t) => s.cmp t))
        ((a.precedence.length : Int) - b.precedence.length)

/-- `cmpSet`: length difference first, then first differing element. -/
def cmpSet (cmp : α → α → Int) (a b : List α) : Int :=
  jsOr ((a.length : Int) - b.length)
    (firstNonzero ((a.zip b).map fun (x, y) => cmp x y))

/-! ## LR items (`Pos` in `src/grammar/automaton.ts`) -/

structure Pos where
  rule : GRule
  pos : Nat
  ahead : GTerm
  prec : List Precedence
deriving DecidableEq, Repr

/-- `Pos.next`: the term after the dot, if any. -/
def Pos.next (p : Pos) : Option GTerm := p.rule.parts.get? p.pos

def Pos.advance (p : Pos) : Pos := { p with pos := p.pos + 1 }

def Pos.cmpSimple (a b : Pos) : Int :=
  jsOr (GRule.cmp a.rule b.rule) ((a.pos : Int) - b.pos)

def Pos.cmp (a b : Pos) : Int :=
  jsOr (a.cmpSimple b) <|
    jsOr (GTerm.cmp a.ahead b.ahead) (cmpSet Precedence.cmp a.prec b.prec)

/-! ## Actions (`Shift` / `Reduce`) -/

/-- An action on a terminal.  A shift's target state is identified by its
numeric id (object identity in the source; ids are unique within a state
array). -/
inductive Action
  | shift (term : GTerm) (target : Nat)
  | reduce (term : GTerm) (rule : GRule)
deriving DecidableEq, Repr

def Action.term : Action → GTerm
  | .shift t _ => t
  | .reduce t _ => t

def Action.isShift : Action → Bool
  | .shift _ _ => true
  | .reduce _ _ => false

/-- `Action.eq` from the source: a shift equals another shift with the same
target; a reduce equals another reduce with the same rule.  The terminal is
not compared. -/
def Action.eqAct : Action → Action → Bool
  | .shift _ t, .shift _ t' => t == t'
  | .reduce _ r, .reduce _ r' => r == r'
  | _, _ => false

/-! ## `State.addAction`

The action table of a state is the list `terminals`, each entry paired with
the precedence list it was registered under (`terminalPrec`), plus the
`ambiguous` flag.  `addAction`'s labelled `check:` loop is modelled by
structural recursion: `continue check` after a splice re-examines the same
index, i.e. proceeds with the remainder of the list without the removed
entry. -/

/-- One entry of a state's terminal action table. -/
abbrev Entry := Action × List Precedence

/-- Decision of the inner `for (let p of prec)` loop of `addAction` for one
existing conflicting entry.  `keepScan` = `continue check` with the entry
kept (intentional conflict, new level < 0); `removeScan` = the entry is
spliced out and the scan continues; `stopTrue` = `return true` (new action
discarded); `fallthrough` = the loop found no decision. -/
inductive PrecDecision
  | keepScan
  | removeScan
  | stopTrue
  | fallthrough
deriving DecidableEq, Repr

/-- Decision taken by one iteration of the inner loop for a matched pair
`(p, m)`: `none` means the iteration was inconclusive (`override` stayed 0)
and the inner loop moves on to the next new precedence entry. -/
def precStep (actionIsShift : Bool) (p m : Precedence) : Option PrecDecision :=
  if p.precedence < 0 then some .keepScan
  else
    let ov := m.precedence - p.precedence
    let ov := if ov = 0 && actionIsShift && p.associativity.isSome then
        (if p.associativity == some .left then 1 else -1)
      else ov
    if ov > 0 then some .removeScan
    else if ov < 0 then some .stopTrue
    else none

def precLoop (actionIsShift : Bool) (prev : List Precedence) :
    List Precedence → PrecDecision
  | [] => .fallthrough
  | p :: ps =>
    match prev.find? (fun x => x.group == p.group) with
    | none => precLoop actionIsShift prev ps
    | some m =>
      match precStep actionIsShift p m with
      | some d => d
      | none => precLoop actionIsShift prev ps

/-- How a call to `addAction` ended: the new action was pushed at the end of
the table; an early `return true`; an early `return false` (no reporting
position); or a thrown shift/reduce or reduce/reduce conflict error. -/
inductive AddOutcome
  | pushed
  | retTrue
  | retFalse
  | raised (existingIsShift : Bool) (term : GTerm)
deriving DecidableEq, Repr

structure AddResult where
  terminals : List Entry
  ambiguous : Bool
  outcome : AddOutcome
deriving DecidableEq, Repr

def addActionAux (value : Action) (prec : List Precedence) (hasPos : Bool) :
    List Entry → Bool → AddResult
  | [], amb => ⟨[(value, prec)], amb, .pushed⟩
  | (a, pr) :: rest, amb =>
    if a.term ≠ value.term then
      let r := addActionAux value prec hasPos rest amb
      ⟨(a, pr) :: r.terminals, r.ambiguous, r.outcome⟩
    else if a.eqAct value then ⟨(a, pr) :: rest, amb, .retTrue⟩
    else
      match precLoop a.isShift pr prec with
      | .keepScan =>
        let r := addActionAux value prec hasPos rest true
        ⟨(a, pr) :: r.terminals, r.ambiguous, r.outcome⟩
      | .removeScan => addActionAux value prec hasPos rest true
      | .stopTrue => ⟨(a, pr) :: rest, true, .retTrue⟩
      | .fallthrough =>
        if hasPos then ⟨(a, pr) :: rest, true, .raised a.isShift a.term⟩
        else ⟨(a, pr) :: rest, true, .retFalse⟩

/-- `State.addAction`: `terminals`/`terminalPrec` and the `ambiguous` flag
before the call, the new action with its precedence list, and whether a
reporting `pos` was supplied. -/
def addAction (terminals : List Entry) (amb : Bool) (value : Action)
    (prec : List Precedence) (hasPos : Bool) : AddResult :=
  addActionAux value prec hasPos terminals amb

/-- Whether the call reported success (JS `return true`). -/
def AddResult.success (r : AddResult) : Bool :=
  match r.outcome with
  | .pushed => true
  | .retTrue => true
  | .retFalse => false
  | .raised _ _ => false

/-- First entry of the new precedence list that has a group match among the
existing entry's precedences, with the match (`prev.find`). -/
def firstGroupMatch (newPrec oldPrec : List Precedence) :
    Option (Precedence × Precedence) :=
  match newPrec with
  | [] => none
  | p :: ps =>
    match oldPrec.find? (fun x => x.group == p.group) with
    | some m => some (p, m)
    | none => firstGroupMatch ps oldPrec

end Gen

namespace Gen

/-! ### Helper lemmas about `addAction` -/

/-- Scanning past entries on other terminals leaves them unchanged and ends
by pushing the new action. -/
theorem addActionAux_all_other (value : Action) (prec : List Precedence)
    (hasPos : Bool) (l : List Entry) (amb : Bool)
    (h : ∀ e ∈ l, e.1.term ≠ value.term) :
    addActionAux value prec hasPos l amb = ⟨l ++ [(value, prec)], amb, .pushed⟩ := by
  induction l with
  | nil => rfl
  | cons e rest ih =>
    obtain ⟨a, pr⟩ := e
    have ha : a.term ≠ value.term := h (a, pr) (List.mem_cons_self _ _)
    simp only [addActionAux, if_pos ha, ih fun e he => h e (List.mem_cons_of_mem _ he),
      List.cons_append]

/-- A prefix of entries on other terminals is carried through unchanged. -/
theorem addActionAux_append_other (value : Action) (prec : List Precedence)
    (hasPos : Bool) (pre rest : List Entry) (amb : Bool)
    (h : ∀ e ∈ pre, e.1.term ≠ value.term) :
    addActionAux value prec hasPos (pre ++ rest) amb =
      ⟨pre ++ (addActionAux value prec hasPos rest amb).terminals,
       (addActionAux value prec hasPos rest amb).ambiguous,
       (addActionAux value prec hasPos rest amb).outcome⟩ := by
  induction pre with
  | nil => rfl
  | cons e pre ih =>
    obtain ⟨a, pr⟩ := e
    have ha : a.term ≠ value.term := h (a, pr) (List.mem_cons_self _ _)
    simp only [List.cons_append, addActionAux, if_pos ha,
      ih fun e he => h e (List.mem_cons_of_mem _ he), List.append_eq]

/-- Decisive single-pair cases of the inner loop. -/
theorem precStep_gt (s : Bool) (p m : Precedence) (hnn : 0 ≤ p.precedence)
    (h : p.precedence < m.precedence) : precStep s p m = some .removeScan := by
  have hd : decide (m.precedence - p.precedence = 0) = false := by
    simp only [decide_eq_false_iff_not]; omega
  simp only [precStep, if_neg (show ¬ p.precedence < 0 by omega), hd,
    Bool.false_and, Bool.false_eq_true, if_false, if_pos (show m.precedence - p.precedence > 0 by omega)]

theorem precStep_lt (s : Bool) (p m : Precedence) (hnn : 0 ≤ p.precedence)
    (h : m.precedence < p.precedence) : precStep s p m = some .stopTrue := by
  have hd : decide (m.precedence - p.precedence = 0) = false := by
    simp only [decide_eq_false_iff_not]; omega
  simp only [precStep, if_neg (show ¬ p.precedence < 0 by omega), hd,
    Bool.false_and, Bool.false_eq_true, if_false,
    if_neg (show ¬ m.precedence - p.precedence > 0 by omega),
    if_pos (show m.precedence - p.precedence < 0 by omega)]

theorem precStep_eq_shift_left (p m : Precedence) (hnn : 0 ≤ p.precedence)
    (heq : m.precedence = p.precedence) (hl : p.associativity = some .left) :
    precStep true p m = some .removeScan := by
  have hd : decide (m.precedence - p.precedence = 0) = true := by
    simp only [decide_eq_true_eq]; omega
  simp [precStep, if_neg (show ¬ p.precedence < 0 by omega), hd, hl]

theorem precStep_eq_shift_right (p m : Precedence) (hnn : 0 ≤ p.precedence)
    (heq : m.precedence = p.precedence) (hr : p.associativity = some .right) :
    precStep true p m = some .stopTrue := by
  have hd : decide (m.precedence - p.precedence = 0) = true := by
    simp only [decide_eq_true_eq]; omega
  simp [precStep, if_neg (show ¬ p.precedence < 0 by omega), hd, hr]

theorem precStep_neg (s : Bool) (p m : Precedence) (h : p.precedence < 0) :
    precStep s p m = some .keepScan := by
  simp [precStep, if_pos h]

/-- When the first group-matching entry of the new precedence list takes a
decision `d`, the whole inner loop of `addAction` decides `d`. -/
theorem precLoop_decides (isShift : Bool) (prev newPrec : List Precedence)
    (p m : Precedence) (h : firstGroupMatch newPrec prev = some (p, m))
    (d : PrecDecision) (hd : precStep isShift p m = some d) :
    precLoop isShift prev newPrec = d := by
  induction newPrec with
  | nil => simp [firstGroupMatch] at h
  | cons q qs ih =>
    rw [firstGroupMatch] at h
    cases hf : prev.find? (fun x => x.group == q.group) with
    | none =>
      rw [hf] at h
      simpa only [precLoop, hf] using ih h
    | some m' =>
      rw [hf] at h
      simp only [Option.some.injEq, Prod.mk.injEq] at h
      obtain ⟨rfl, rfl⟩ := h
      simp only [precLoop, hf, hd]

end Gen

namespace Gen

/-- Outcome of `addAction` when the table holds exactly one action on the
new action's terminal, as a function of the inner-loop decision. -/
theorem addAction_conflict_core (pre post : List Entry) (A A' : Action)
    (precA prec' : List Precedence) (amb hasPos : Bool)
    (hpre : ∀ e ∈ pre, e.1.term ≠ A'.term)
    (hpost : ∀ e ∈ post, e.1.term ≠ A'.term)
    (hterm : A.term = A'.term)
    (hne : A.eqAct A' = false) :
    (precLoop A.isShift precA prec' = .removeScan →
      addAction (pre ++ (A, precA) :: post) amb A' prec' hasPos =
        ⟨pre ++ (post ++ [(A', prec')]), true, .pushed⟩) ∧
    (precLoop A.isShift precA prec' = .stopTrue →
      addAction (pre ++ (A, precA) :: post) amb A' prec' hasPos =
        ⟨pre ++ (A, precA) :: post, true, .retTrue⟩) ∧
    (precLoop A.isShift precA prec' = .keepScan →
      addAction (pre ++ (A, precA) :: post) amb A' prec' hasPos =
        ⟨pre ++ ((A, precA) :: (post ++ [(A', prec')])), true, .pushed⟩) := by
  have hstep : ∀ d, precLoop A.isShift precA prec' = d →
      addAction (pre ++ (A, precA) :: post) amb A' prec' hasPos =
        ⟨pre ++ (addActionAux A' prec' hasPos ((A, precA) :: post) amb).terminals,
          (addActionAux A' prec' hasPos ((A, precA) :: post) amb).ambiguous,
          (addActionAux A' prec' hasPos ((A, precA) :: post) amb).outcome⟩ :=
    fun d _ => addActionAux_append_other A' prec' hasPos pre _ amb hpre
  refine ⟨fun hdec => ?_, fun hdec => ?_, fun hdec => ?_⟩ <;>
    rw [hstep _ hdec] <;>
    simp only [addActionAux, if_neg (not_not_intro hterm), hne, Bool.false_eq_true,
      if_false, hdec, addActionAux_all_other A' prec' hasPos post true hpost]

/-- C1: when `State.addAction` receives a new action `A'` for a terminal that
already carries a different action `A`, and the first entry of the new
precedence list with a group match among the existing entry's precedences has
non-negative level, the outcome follows the level difference: a greater
existing level removes `A` and installs `A'`; a smaller existing level
discards `A'` leaving the table unchanged; on equal levels, if the existing
action is a shift and the new entry carries an associativity, `left` removes
the shift and installs `A'` (the reduce) while `right` keeps the shift and
discards `A'`. -/
theorem claim1_addAction_precedence_resolution (pre post : List Entry)
    (A A' : Action) (precA prec' : List Precedence) (amb hasPos : Bool)
    (p m : Precedence)
    (hpre : ∀ e ∈ pre, e.1.term ≠ A'.term)
    (hpost : ∀ e ∈ post, e.1.term ≠ A'.term)
    (hterm : A.term = A'.term)
    (hne : A.eqAct A' = false)
    (hmatch : firstGroupMatch prec' precA = some (p, m))
    (hnn : 0 ≤ p.precedence) :
    (p.precedence < m.precedence →
      addAction (pre ++ (A, precA) :: post) amb A' prec' hasPos =
        ⟨pre ++ (post ++ [(A', prec')]), true, .pushed⟩) ∧
    (m.precedence < p.precedence →
      addAction (pre ++ (A, precA) :: post) amb A' prec' hasPos =
        ⟨pre ++ (A, precA) :: post, true, .retTrue⟩) ∧
    (m.precedence = p.precedence → A.isShift = true →
      (p.associativity = some .left →
        addAction (pre ++ (A, precA) :: post) amb A' prec' hasPos =
          ⟨pre ++ (post ++ [(A', prec')]), true, .pushed⟩) ∧
      (p.associativity = some .right →
        addAction (pre ++ (A, precA) :: post) amb A' prec' hasPos =
          ⟨pre ++ (A, precA) :: post, true, .retTrue⟩)) := by
  obtain ⟨hrem, hstop, -⟩ :=
    addAction_conflict_core pre post A A' precA prec' amb hasPos hpre hpost hterm hne
  refine ⟨fun hgt => ?_, fun hlt => ?_, fun heq hs => ⟨fun hl => ?_, fun hr => ?_⟩⟩
  · exact hrem (precLoop_decides _ _ _ _ _ hmatch _ (precStep_gt _ _ _ hnn hgt))
  · exact hstop (precLoop_decides _ _ _ _ _ hmatch _ (precStep_lt _ _ _ hnn hlt))
  · exact hrem (by
      rw [hs]
      exact precLoop_decides _ _ _ _ _ hmatch _ (precStep_eq_shift_left _ _ hnn heq hl))
  · exact hstop (by
      rw [hs]
      exact precLoop_decides _ _ _ _ _ hmatch _ (precStep_eq_shift_right _ _ hnn heq hr))

/-- Witness for C1 at a concrete input: a shift on terminal `t` with group
`g` at level 7 is already present; a reduce arrives with group `g` at
level 5; the existing level is greater, so the shift is removed and the
reduce installed. -/
theorem claim1_addAction_precedence_resolution_witness :
    ((5 : Int) < 7) ∧
    addAction [(.shift ⟨"t", 1, none⟩ 3, [⟨none, "g", 7⟩])] false
        (.reduce ⟨"t", 1, none⟩ ⟨⟨"R", 0, none⟩, [], []⟩) [⟨some .left, "g", 5⟩] false =
      ⟨[(.reduce ⟨"t", 1, none⟩ ⟨⟨"R", 0, none⟩, [], []⟩, [⟨some .left, "g", 5⟩])],
        true, .pushed⟩ := by
  refine ⟨by norm_num, ?_⟩
  have h := claim1_addAction_precedence_resolution []
    [] (.shift ⟨"t", 1, none⟩ 3) (.reduce ⟨"t", 1, none⟩ ⟨⟨"R", 0, none⟩, [], []⟩)
    [⟨none, "g", 7⟩] [⟨some .left, "g", 5⟩] false false
    ⟨some .left, "g", 5⟩ ⟨none, "g", 7⟩
    (by simp) (by simp) rfl rfl rfl (by norm_num)
  simpa using h.1 (by norm_num)

end Gen

namespace Gen

/-- C5 (amended): when the first group-matching entry of the new precedence
list has negative level, `addAction` treats the conflict as intentional and
raises no error, but it does not discard the new action: the existing action
`A` is kept, the new action `A'` is appended to the table alongside it, the
state is marked ambiguous, and the call reports success. -/
theorem claim5_addAction_negative_level_amended (pre post : List Entry)
    (A A' : Action) (precA prec' : List Precedence) (amb hasPos : Bool)
    (p m : Precedence)
    (hpre : ∀ e ∈ pre, e.1.term ≠ A'.term)
    (hpost : ∀ e ∈ post, e.1.term ≠ A'.term)
    (hterm : A.term = A'.term)
    (hne : A.eqAct A' = false)
    (hmatch : firstGroupMatch prec' precA = some (p, m))
    (hneg : p.precedence < 0) :
    addAction (pre ++ (A, precA) :: post) amb A' prec' hasPos =
      ⟨pre ++ ((A, precA) :: (post ++ [(A', prec')])), true, .pushed⟩ := by
  obtain ⟨-, -, hkeep⟩ :=
    addAction_conflict_core pre post A A' precA prec' amb hasPos hpre hpost hterm hne
  exact hkeep (precLoop_decides _ _ _ _ _ hmatch _ (precStep_neg _ _ _ hneg))

/-- Counterexample to C5 as stated: with a shift on `t` present under group
`g` level 5 and a reduce arriving under group `g` level −1, the call raises
no error but the action table does not stay unchanged: the reduce is pushed
next to the shift, so the existing action is no longer the only action for
`t`. -/
theorem claim5_counterexample :
    addAction [(.shift ⟨"t", 1, none⟩ 1, [⟨none, "g", 5⟩])] false
        (.reduce ⟨"t", 1, none⟩ ⟨⟨"R", 0, none⟩, [], []⟩) [⟨none, "g", -1⟩] false =
      ⟨[(.shift ⟨"t", 1, none⟩ 1, [⟨none, "g", 5⟩]),
        (.reduce ⟨"t", 1, none⟩ ⟨⟨"R", 0, none⟩, [], []⟩, [⟨none, "g", -1⟩])],
        true, .pushed⟩ ∧
    (addAction [(.shift ⟨"t", 1, none⟩ 1, [⟨none, "g", 5⟩])] false
        (.reduce ⟨"t", 1, none⟩ ⟨⟨"R", 0, none⟩, [], []⟩) [⟨none, "g", -1⟩] false).terminals ≠
      [(.shift ⟨"t", 1, none⟩ 1, [⟨none, "g", 5⟩])] := by
  refine ⟨by rfl, ?_⟩
  intro hcontra
  simp only [show addAction [(.shift ⟨"t", 1, none⟩ 1, [⟨none, "g", 5⟩])] false
        (.reduce ⟨"t", 1, none⟩ ⟨⟨"R", 0, none⟩, [], []⟩) [⟨none, "g", -1⟩] false =
      ⟨[(.shift ⟨"t", 1, none⟩ 1, [⟨none, "g", 5⟩]),
        (.reduce ⟨"t", 1, none⟩ ⟨⟨"R", 0, none⟩, [], []⟩, [⟨none, "g", -1⟩])],
        true, .pushed⟩ from rfl] at hcontra
  exact absurd (congrArg List.length hcontra) (by simp)

/-- Witness for the amended C5 at a concrete input. -/
theorem claim5_addAction_negative_level_amended_witness :
    ((-1 : Int) < 0) ∧
    addAction [(.shift ⟨"u", 1, none⟩ 2, [⟨none, "h", 9⟩])] false
        (.reduce ⟨"u", 1, none⟩ ⟨⟨"S", 0, none⟩, [], []⟩) [⟨none, "h", -1⟩] true =
      ⟨[(.shift ⟨"u", 1, none⟩ 2, [⟨none, "h", 9⟩]),
        (.reduce ⟨"u", 1, none⟩ ⟨⟨"S", 0, none⟩, [], []⟩, [⟨none, "h", -1⟩])],
        true, .pushed⟩ := by
  refine ⟨by norm_num, ?_⟩
  have h := claim5_addAction_negative_level_amended [] []
    (.shift ⟨"u", 1, none⟩ 2) (.reduce ⟨"u", 1, none⟩ ⟨⟨"S", 0, none⟩, [], []⟩)
    [⟨none, "h", 9⟩] [⟨none, "h", -1⟩] false true
    ⟨none, "h", -1⟩ ⟨none, "h", 9⟩
    (by simp) (by simp) rfl rfl rfl (by norm_num)
  simpa using h

end Gen

namespace Gen

/-! ## FIRST-set table and `closure`

The FIRST table is keyed by non-terminal name, as in the source
(`{[name: string]: Term[]}`); `null` entries (modelled as `none`) mark
nullability. -/

abbrev FirstTable := List (String × List (Option GTerm))

def lookupTable (t : FirstTable) (name : String) : List (Option GTerm) :=
  match t.find? (fun e => e.1 == name) with
  | some e => e.2
  | none => []

/-- One step of `Pos.termsAhead`'s inner loop: add the non-null terms that
are not yet present; remember whether a `null` was seen (`cont`). -/
def aheadFold (start : List GTerm × Bool) (opts : List (Option GTerm)) :
    List GTerm × Bool :=
  opts.foldl
    (fun fc o =>
      match o with
      | none => (fc.1, true)
      | some term => (if fc.1.contains term then fc.1 else fc.1 ++ [term], fc.2))
    start

/-- `Pos.termsAhead`: first terminals of the rule suffix after the dot,
falling back to the item's lookahead when the whole suffix is nullable.
The loop over dot positions is driven by a structurally decreasing counter
initialised to `r.parts.length`, which bounds the remaining iterations. -/
def termsAheadAux (r : GRule) (ahead : GTerm) (first : FirstTable) :
    Nat → Nat → List GTerm → List GTerm
  | remaining, pos, found =>
    match remaining, r.parts.get? pos with
    | rem + 1, some next =>
      let opts : List (Option GTerm) :=
        if next.terminal then [some next] else lookupTable first next.name
      let fc := aheadFold (found, false) opts
      if fc.2 then termsAheadAux r ahead first rem (pos + 1) fc.1 else fc.1
    | _, _ => if found.contains ahead then found else found ++ [ahead]

def Pos.termsAhead (p : Pos) (first : FirstTable) : List GTerm :=
  termsAheadAux p.rule p.ahead first p.rule.parts.length (p.pos + 1) []

/-- Push a derived item `[rule → ·, a]` unless an item with the same rule,
dot 0 and lookahead is already present (`closure`'s guard; the precedence
stack is not part of the key). -/
def addDerived (result : List Pos) (rule : GRule) (a : GTerm)
    (nextPrec : List Precedence) : List Pos :=
  if result.any (fun p => p.rule == rule && p.pos == 0 && p.ahead == a) then result
  else result ++ [⟨rule, 0, a, nextPrec⟩]

/-- The body of `closure`'s `for (let rule of rules)` loop for one item. -/
def closureExpand (result : List Pos) (rules : List GRule) (next : GTerm)
    (ahead : List GTerm) (nextPrec : List Precedence) : List Pos :=
  rules.foldl
    (fun result rule =>
      if rule.name == next then
        ahead.foldl (fun result a => addDerived result rule a nextPrec) result
      else result)
    result

/-- The worklist loop of `closure`: `for (let pos of result)` over a growing
array, with explicit fuel (the dedup guard bounds the growth, so enough fuel
always exists; the theorems are conditional on completion). -/
def closureLoop (rules : List GRule) (first : FirstTable) :
    Nat → List Pos → Nat → Option (List Pos)
  | 0, _, _ => none
  | fuel + 1, result, i =>
    if h : i < result.length then
      match (result.get ⟨i, h⟩).next with
      | none => closureLoop rules first fuel result (i + 1)
      | some next =>
        if next.terminal then closureLoop rules first fuel result (i + 1)
        else closureLoop rules first fuel
          (closureExpand result rules next ((result.get ⟨i, h⟩).termsAhead first)
            ((result.get ⟨i, h⟩).rule.precAt (result.get ⟨i, h⟩).pos)) (i + 1)
    else some result

/-- Insertion of one element by a boolean comparison (`Array.prototype.sort`
is modelled by a comparison sort over `cmp(a, b) <= 0`). -/
def insertCmp (le : α → α → Bool) (x : α) : List α → List α
  | [] => [x]
  | y :: ys => if le x y then x :: y :: ys else y :: insertCmp le x ys

def sortCmp (le : α → α → Bool) : List α → List α
  | [] => []
  | x :: xs => insertCmp le x (sortCmp le xs)

def posLe (a b : Pos) : Bool := a.cmp b ≤ 0

/-- `closure(set, rules, first)`: run the worklist loop, then sort by the
canonical item ordering `Pos.cmp`. -/
def closure (rules : List GRule) (first : FirstTable) (kernel : List Pos)
    (fuel : Nat) : Option (List Pos) :=
  (closureLoop rules first fuel kernel 0).map (sortCmp posLe)

end Gen

namespace Gen

/-! ### Sortedness of `sortCmp` under local totality/transitivity -/

theorem insertCmp_mem (le : α → α → Bool) (x : α) (l : List α) (z : α) :
    z ∈ insertCmp le x l ↔ z = x ∨ z ∈ l := by
  induction l with
  | nil => simp [insertCmp]
  | cons y ys ih =>
    by_cases h : le x y = true
    · simp only [insertCmp, if_pos h, List.mem_cons]
      try tauto
    · simp only [insertCmp, if_neg h, List.mem_cons, ih]
      try tauto

theorem sortCmp_mem (le : α → α → Bool) (l : List α) (z : α) :
    z ∈ sortCmp le l ↔ z ∈ l := by
  induction l with
  | nil => simp [sortCmp]
  | cons y ys ih => simp [sortCmp, insertCmp_mem, ih, List.mem_cons]

theorem insertCmp_pairwise (le : α → α → Bool) (x : α) (l : List α)
    (hsorted : l.Pairwise (fun a b => le a b = true))
    (htot : ∀ y ∈ l, le x y = true ∨ le y x = true)
    (htrans : ∀ a ∈ x :: l, ∀ b ∈ x :: l, ∀ c ∈ x :: l,
      le a b = true → le b c = true → le a c = true) :
    (insertCmp le x l).Pairwise (fun a b => le a b = true) := by
  induction l with
  | nil => simp [insertCmp]
  | cons y ys ih =>
    rw [List.pairwise_cons] at hsorted
    obtain ⟨hy, hys⟩ := hsorted
    by_cases h : le x y = true
    · rw [insertCmp, if_pos h]
      refine List.Pairwise.cons ?_ (List.Pairwise.cons hy hys)
      intro z hz
      rcases List.mem_cons.mp hz with rfl | hz
      · exact h
      · exact htrans x (by simp) y (by simp) z (by simp [hz]) h (hy z hz)
    · rw [insertCmp, if_neg h]
      have hyx : le y x = true := by
        rcases htot y (by simp) with h' | h'
        · exact absurd h' h
        · exact h'
      refine List.Pairwise.cons ?_ ?_
      · intro z hz
        rcases (insertCmp_mem le x ys z).mp hz with rfl | hz
        · exact hyx
        · exact hy z hz
      · refine ih hys (fun z hz => htot z (by simp [hz])) ?_
        intro a ha b hb c hc
        have sub : ∀ w, w ∈ x :: ys → w ∈ x :: y :: ys := by
          intro w hw
          rcases List.mem_cons.mp hw with rfl | hw
          · simp
          · simp [hw]
        exact htrans a (sub a ha) b (sub b hb) c (sub c hc)

theorem sortCmp_pairwise (le : α → α → Bool) (l : List α)
    (htot : ∀ a ∈ l, ∀ b ∈ l, le a b = true ∨ le b a = true)
    (htrans : ∀ a ∈ l, ∀ b ∈ l, ∀ c ∈ l,
      le a b = true → le b c = true → le a c = true) :
    (sortCmp le l).Pairwise (fun a b => le a b = true) := by
  induction l with
  | nil => simp [sortCmp]
  | cons x xs ih =>
    rw [sortCmp]
    have hmem : ∀ z ∈ sortCmp le xs, z ∈ x :: xs := by
      intro z hz
      exact List.mem_cons_of_mem _ ((sortCmp_mem le xs z).mp hz)
    refine insertCmp_pairwise le x (sortCmp le xs)
      (ih (fun a ha b hb => htot a (by simp [ha]) b (by simp [hb]))
        (fun a ha b hb c hc => htrans a (by simp [ha]) b (by simp [hb]) c (by simp [hc])))
      (fun y hy => htot x (by simp) y (hmem y hy)) ?_
    intro a ha b hb c hc
    have sub : ∀ w, w ∈ x :: sortCmp le xs → w ∈ x :: xs := by
      intro w hw
      rcases List.mem_cons.mp hw with rfl | hw
      · simp
      · exact hmem w hw
    exact htrans a (sub a ha) b (sub b hb) c (sub c hc)

end Gen

namespace Gen

/-! ### The dedup invariant of the closure accumulator -/

/-- Invariant of `closure`'s accumulator: every item past index `k` (the
kernel length) was appended with dot 0 and with a (rule, dot, lookahead) key
no earlier item carries. -/
structure DerivedFresh (k : Nat) (l : List Pos) : Prop where
  pos0 : ∀ j (hj : j < l.length), k ≤ j → (l.get ⟨j, hj⟩).pos = 0
  fresh : ∀ j (hj : j < l.length), k ≤ j → ∀ i (hi : i < l.length), i < j →
    ¬ ((l.get ⟨i, hi⟩).rule = (l.get ⟨j, hj⟩).rule ∧ (l.get ⟨i, hi⟩).pos = 0 ∧
       (l.get ⟨i, hi⟩).ahead = (l.get ⟨j, hj⟩).ahead)

theorem addDerived_fresh (k : Nat) (l : List Pos) (rule : GRule) (a : GTerm)
    (prec : List Precedence) (h : DerivedFresh k l) :
    DerivedFresh k (addDerived l rule a prec) := by
  rw [addDerived]
  by_cases hg : l.any (fun p => p.rule == rule && p.pos == 0 && p.ahead == a) = true
  · rwa [if_pos hg]
  · rw [if_neg hg]
    have hguard : ∀ p ∈ l, ¬ (p.rule = rule ∧ p.pos = 0 ∧ p.ahead = a) := by
      intro p hp hcontra
      refine hg (List.any_eq_true.mpr ⟨p, hp, ?_⟩)
      simp only [Bool.and_eq_true, beq_iff_eq]
      exact ⟨⟨hcontra.1, hcontra.2.1⟩, hcontra.2.2⟩
    constructor
    · intro j hj hk
      rcases Nat.lt_or_ge j l.length with hjl | hjl
      · rw [List.get_append _ hjl]
        exact h.pos0 j hjl hk
      · have hj' : j = l.length := by
          simp only [List.length_append, List.length_singleton] at hj
          omega
        subst hj'
        simp
    · intro j hj hk i hi hij
      rcases Nat.lt_or_ge j l.length with hjl | hjl
      · have hil : i < l.length := hij.trans hjl
        rw [List.get_append _ hjl, List.get_append _ hil]
        exact h.fresh j hjl hk i hil hij
      · have hj' : j = l.length := by
          simp only [List.length_append, List.length_singleton] at hj
          omega
        subst hj'
        have hil : i < l.length := hij
        rw [List.get_append _ hil]
        intro hcontra
        refine hguard (l.get ⟨i, hil⟩) (List.get_mem l i hil) ?_
        have hgetj : (l ++ [(⟨rule, 0, a, prec⟩ : Pos)]).get ⟨l.length, hj⟩ =
            ⟨rule, 0, a, prec⟩ := by simp
        rw [hgetj] at hcontra
        exact hcontra

theorem foldl_preserves {α β : Type} {P : β → Prop} (f : β → α → β)
    (h : ∀ b a, P b → P (f b a)) :
    ∀ (l : List α) (b : β), P b → P (l.foldl f b) := by
  intro l
  induction l with
  | nil => intro b hb; exact hb
  | cons x xs ih => intro b hb; exact ih (f b x) (h b x hb)

theorem closureExpand_fresh (k : Nat) (l : List Pos) (rules : List GRule)
    (next : GTerm) (ahead : List GTerm) (prec : List Precedence)
    (h : DerivedFresh k l) :
    DerivedFresh k (closureExpand l rules next ahead prec) := by
  rw [closureExpand]
  refine foldl_preserves _ ?_ rules l h
  intro b rule hb
  by_cases hr : (rule.name == next) = true
  · rw [if_pos hr]
    refine foldl_preserves _ ?_ ahead b hb
    intro b a hb
    exact addDerived_fresh k b rule a prec hb
  · rwa [if_neg hr]

theorem closureLoop_fresh (rules : List GRule) (first : FirstTable) (k : Nat) :
    ∀ (fuel : Nat) (result : List Pos) (i : Nat) (acc : List Pos),
      closureLoop rules first fuel result i = some acc →
      DerivedFresh k result → DerivedFresh k acc := by
  intro fuel
  induction fuel with
  | zero => intro result i acc hrun; simp [closureLoop] at hrun
  | succ fuel ih =>
    intro result i acc hrun hres
    rw [closureLoop] at hrun
    split at hrun
    · split at hrun
      · exact ih _ _ _ hrun hres
      · split at hrun
        · exact ih _ _ _ hrun hres
        · exact ih _ _ _ hrun (closureExpand_fresh k _ rules _ _ _ hres)
    · cases hrun
      exact hres

end Gen

namespace Gen

/-- C4: during closure a derived item `[B → ·γ, b]` is added only when no
item equal to it under full item equality (same rule, dot position,
lookahead and precedence stack) is already in the set — every item the
worklist appended past the kernel is distinct, as a whole `Pos` value, from
every item before it — and the closed set returned by `closure` is sorted by
the canonical item ordering `Pos.cmp` (lexicographic in rule, dot,
lookahead, precedence stack).  Sortedness is stated under local totality and
transitivity of the comparator on the computed set, which hold whenever
distinct terms have distinct names, as the builder guarantees. -/
theorem claim4_closure_dedup_and_sorted (rules : List GRule)
    (first : FirstTable) (kernel : List Pos) (fuel : Nat) (acc : List Pos)
    (hrun : closureLoop rules first fuel kernel 0 = some acc)
    (htot : ∀ a ∈ acc, ∀ b ∈ acc, posLe a b = true ∨ posLe b a = true)
    (htrans : ∀ a ∈ acc, ∀ b ∈ acc, ∀ c ∈ acc,
      posLe a b = true → posLe b c = true → posLe a c = true) :
    (∀ j (hj : j < acc.length), kernel.length ≤ j →
      ∀ i (hi : i < acc.length), i < j → acc.get ⟨i, hi⟩ ≠ acc.get ⟨j, hj⟩) ∧
    closure rules first kernel fuel = some (sortCmp posLe acc) ∧
    (sortCmp posLe acc).Pairwise (fun a b => posLe a b = true) := by
  have hinit : DerivedFresh kernel.length kernel := by
    constructor
    · intro j hj hk; omega
    · intro j hj hk; omega
  have hfresh := closureLoop_fresh rules first kernel.length fuel kernel 0 acc hrun hinit
  refine ⟨?_, ?_, sortCmp_pairwise posLe acc htot htrans⟩
  · intro j hj hk i hi hij heq
    refine hfresh.fresh j hj hk i hi hij ?_
    rw [heq]
    exact ⟨rfl, hfresh.pos0 j hj hk, rfl⟩
  · rw [closure, hrun]
    rfl

/-- Witness for C4 on the grammar `S → A`, `A → ε` with kernel
`{[S → ·A, $]}`: the loop derives `[A → ·, $]` exactly once and the result
of `closure` is sorted. -/
theorem claim4_closure_dedup_and_sorted_witness :
    closureLoop [⟨⟨"S", 8, none⟩, [⟨"A", 0, none⟩], []⟩, ⟨⟨"A", 0, none⟩, [], []⟩]
        [("A", [none]), ("S", [none])] 4
        [⟨⟨⟨"S", 8, none⟩, [⟨"A", 0, none⟩], []⟩, 0, ⟨"$", 3, none⟩, []⟩] 0 =
      some [⟨⟨⟨"S", 8, none⟩, [⟨"A", 0, none⟩], []⟩, 0, ⟨"$", 3, none⟩, []⟩,
            ⟨⟨⟨"A", 0, none⟩, [], []⟩, 0, ⟨"$", 3, none⟩, []⟩] ∧
    ([⟨⟨⟨"S", 8, none⟩, [⟨"A", 0, none⟩], []⟩, 0, ⟨"$", 3, none⟩, []⟩,
      ⟨⟨⟨"A", 0, none⟩, [], []⟩, 0, ⟨"$", 3, none⟩, []⟩] : List Pos).get ⟨0, by norm_num⟩ ≠
      ([⟨⟨⟨"S", 8, none⟩, [⟨"A", 0, none⟩], []⟩, 0, ⟨"$", 3, none⟩, []⟩,
        ⟨⟨⟨"A", 0, none⟩, [], []⟩, 0, ⟨"$", 3, none⟩, []⟩] : List Pos).get ⟨1, by norm_num⟩ ∧
    (sortCmp posLe [⟨⟨⟨"S", 8, none⟩, [⟨"A", 0, none⟩], []⟩, 0, ⟨"$", 3, none⟩, []⟩,
      ⟨⟨⟨"A", 0, none⟩, [], []⟩, 0, ⟨"$", 3, none⟩, []⟩]).Pairwise
      (fun a b => posLe a b = true) := by
  have hrun : closureLoop [⟨⟨"S", 8, none⟩, [⟨"A", 0, none⟩], []⟩, ⟨⟨"A", 0, none⟩, [], []⟩]
      [("A", [none]), ("S", [none])] 4
      [⟨⟨⟨"S", 8, none⟩, [⟨"A", 0, none⟩], []⟩, 0, ⟨"$", 3, none⟩, []⟩] 0 =
      some [⟨⟨⟨"S", 8, none⟩, [⟨"A", 0, none⟩], []⟩, 0, ⟨"$", 3, none⟩, []⟩,
            ⟨⟨⟨"A", 0, none⟩, [], []⟩, 0, ⟨"$", 3, none⟩, []⟩] := by decide
  have h := claim4_closure_dedup_and_sorted _ _ _ _ _ hrun (by decide) (by decide)
  exact ⟨hrun, h.1 1 (by norm_num) (by norm_num) 0 (by norm_num) (by norm_num), h.2.2⟩

end Gen

namespace Gen

/-! ## `computeFirst` (`src/grammar/automaton.ts`)

The table is an association list keyed by non-terminal name.  Lookup takes
the first entry; update replaces the first entry (later duplicates are
shadowed in both, matching a JavaScript object's unique keys). -/

/-- `add(value, array)`: push unless present. -/
def addOpt (set : List (Option GTerm)) (x : Option GTerm) : List (Option GTerm) :=
  if set.contains x then set else set ++ [x]

def updateTable : FirstTable → String → List (Option GTerm) → FirstTable
  | [], _, _ => []
  | e :: es, name, set =>
    if e.1 == name then (e.1, set) :: es else e :: updateTable es name set

def ContainsKey (t : FirstTable) (name : String) : Prop :=
  (t.find? (fun e => e.1 == name)).isSome

/-- `add(x, table[lhs])`: push `x` onto the lhs set unless present. -/
def pushTo (lhs : String) (x : Option GTerm) (t : FirstTable) : FirstTable :=
  updateTable t lhs (addOpt (lookupTable t lhs) x)

/-- Adding the non-`null` members of one FIRST set to the lhs set
(`for (let t of table[part.name]) { … else add(t, set) }`). -/
def foldAdd (lhs : String) (t : FirstTable) (opts : List (Option GTerm)) : FirstTable :=
  opts.foldl
    (fun t o =>
      match o with
      | none => t
      | some x => pushTo lhs (some x) t)
    t

/-- The `for (let part of rule.parts)` walk of `computeFirst`, returning the
updated table and the final value of the `found` flag. -/
def ruleWalk (lhs : String) : FirstTable → List GTerm → FirstTable × Bool
  | t, [] => (t, false)
  | t, part :: rest =>
    if part.terminal then (pushTo lhs (some part) t, true)
    else
      let firstPart := lookupTable t part.name
      let t1 := foldAdd lhs t firstPart
      if firstPart.contains none then ruleWalk lhs t1 rest else (t1, true)

/-- Processing one rule: the walk, the `add(null, set)` when every part was
nullable, and the growth check that drives the `change` flag. -/
def ruleStep (t : FirstTable) (r : GRule) : FirstTable × Bool :=
  let startLen := (lookupTable t r.name.name).length
  let wr := ruleWalk r.name.name t r.parts
  let t2 := if wr.2 then wr.1 else pushTo r.name.name none wr.1
  (t2, decide ((lookupTable t2 r.name.name).length > startLen))

/-- One pass of the fixpoint loop over all rules. -/
def firstPass (rules : List GRule) (t : FirstTable) : FirstTable × Bool :=
  rules.foldl
    (fun tc r =>
      let sr := ruleStep tc.1 r
      (sr.1, tc.2 || sr.2))
    (t, false)

def firstIter (rules : List GRule) : Nat → FirstTable → Option FirstTable
  | 0, _ => none
  | fuel + 1, t =>
    let pr := firstPass rules t
    if pr.2 then firstIter rules fuel pr.1 else some pr.1

/-- `computeFirst(rules, nonTerminals)`: empty sets for every non-terminal,
then iterate passes until a pass changes nothing (with explicit fuel; the
sets only grow inside a finite universe, so enough fuel always exists). -/
def computeFirst (rules : List GRule) (nonTerminals : List GTerm) (fuel : Nat) :
    Option FirstTable :=
  firstIter rules fuel (nonTerminals.map (fun t => (t.name, [])))

/-! ## Context-free derivations over the rule list

`Step` rewrites one occurrence of a rule's lhs term to its parts; `Derives`
is its reflexive-transitive closure.  This is the reference semantics the
FIRST sets are checked against. -/

inductive DStep (rules : List GRule) : List GTerm → List GTerm → Prop
  | mk (pre post : List GTerm) (r : GRule) (hr : r ∈ rules) :
      DStep rules (pre ++ [r.name] ++ post) (pre ++ r.parts ++ post)

def Derives (rules : List GRule) : List GTerm → List GTerm → Prop :=
  Relation.ReflTransGen (DStep rules)

/-- Well-formedness of the grammar as the builder guarantees it: rule
lhs terms are non-terminals from the list, non-terminal parts are from the
list, non-terminal names are unique, and list members are non-terminals. -/
structure WellFormedG (rules : List GRule) (nts : List GTerm) : Prop where
  lhs_mem : ∀ r ∈ rules, r.name ∈ nts
  parts_mem : ∀ r ∈ rules, ∀ p ∈ r.parts, p.terminal = false → p ∈ nts
  name_inj : ∀ a ∈ nts, ∀ b ∈ nts, a.name = b.name → a = b
  nts_nonterminal : ∀ a ∈ nts, a.terminal = false

/-- All members of a list are nullable according to the table (non-terminal
with a `null` in its FIRST set). -/
def NullPrefix (T : FirstTable) (l : List GTerm) : Prop :=
  ∀ p ∈ l, p.terminal = false ∧ none ∈ lookupTable T p.name

/-- A terminal `t` is reachable as the first terminal of the list `l`
according to the table: some member is `t` itself or has `t` in its FIRST
set, and everything before it is nullable. -/
inductive FirstIn (T : FirstTable) (t : GTerm) : List GTerm → Prop
  | here (e : GTerm) (rest : List GTerm)
      (h : e = t ∨ (e.terminal = false ∧ some t ∈ lookupTable T e.name)) :
      FirstIn T t (e :: rest)
  | there (e : GTerm) (rest : List GTerm)
      (hnull : e.terminal = false ∧ none ∈ lookupTable T e.name)
      (h : FirstIn T t rest) : FirstIn T t (e :: rest)

end Gen

namespace Gen

/-! ### Basic table lemmas -/

theorem lookupTable_cons (e : String × List (Option GTerm)) (es : FirstTable)
    (name : String) :
    lookupTable (e :: es) name = if e.1 == name then e.2 else lookupTable es name := by
  by_cases h : (e.1 == name) = true
  · simp [lookupTable, List.find?, h]
  · simp only [Bool.not_eq_true] at h
    simp [lookupTable, List.find?, h]

theorem updateTable_self (t : FirstTable) (name : String) :
    updateTable t name (lookupTable t name) = t := by
  induction t with
  | nil => rfl
  | cons e es ih =>
    rw [lookupTable_cons, updateTable]
    by_cases h : (e.1 == name) = true
    · simp [h]
    · simp only [Bool.not_eq_true] at h
      simp only [h, if_false, Bool.false_eq_true]
      rw [ih]

theorem containsKey_cons (e : String × List (Option GTerm)) (es : FirstTable)
    (name : String) :
    ContainsKey (e :: es) name ↔ e.1 = name ∨ ContainsKey es name := by
  by_cases h : (e.1 == name) = true
  · simp [ContainsKey, List.find?, h, beq_iff_eq.mp h]
  · simp only [Bool.not_eq_true] at h
    simp [ContainsKey, List.find?, h, beq_eq_false_iff_ne.mp h]

theorem updateTable_absent (t : FirstTable) (name : String)
    (s : List (Option GTerm)) (h : ¬ ContainsKey t name) :
    updateTable t name s = t := by
  induction t with
  | nil => rfl
  | cons e es ih =>
    rw [containsKey_cons] at h
    push_neg at h
    rw [updateTable, if_neg (by simp [h.1]), ih h.2]

theorem lookupTable_absent (t : FirstTable) (name : String)
    (h : ¬ ContainsKey t name) : lookupTable t name = [] := by
  rw [lookupTable]
  cases hf : t.find? (fun e => e.1 == name) with
  | none => rfl
  | some e => exact absurd (by rw [ContainsKey, hf]; rfl) h

theorem lookupTable_update_self (t : FirstTable) (name : String)
    (s : List (Option GTerm)) (h : ContainsKey t name) :
    lookupTable (updateTable t name s) name = s := by
  induction t with
  | nil => exact absurd h (by simp [ContainsKey, List.find?])
  | cons e es ih =>
    rw [updateTable]
    by_cases he : (e.1 == name) = true
    · rw [if_pos he, lookupTable_cons]
      simp [he]
    · rw [if_neg he, lookupTable_cons, if_neg he]
      refine ih ?_
      rw [containsKey_cons] at h
      rcases h with h | h
      · exact absurd (by simp [h]) he
      · exact h

theorem lookupTable_update_other (t : FirstTable) (name name' : String)
    (s : List (Option GTerm)) (h : name ≠ name') :
    lookupTable (updateTable t name s) name' = lookupTable t name' := by
  induction t with
  | nil => rfl
  | cons e es ih =>
    rw [updateTable]
    by_cases he : (e.1 == name) = true
    · rw [if_pos he, lookupTable_cons, lookupTable_cons]
      have : (e.1 == name') = false := by
        simp only [beq_eq_false_iff_ne]
        rw [beq_iff_eq.mp he]
        exact h
      simp [this]
    · rw [if_neg he, lookupTable_cons, lookupTable_cons, ih]

theorem containsKey_update (t : FirstTable) (name : String)
    (s : List (Option GTerm)) (name' : String) :
    ContainsKey (updateTable t name s) name' ↔ ContainsKey t name' := by
  induction t with
  | nil => simp [updateTable]
  | cons e es ih =>
    rw [updateTable]
    by_cases he : (e.1 == name) = true
    · rw [if_pos he, containsKey_cons, containsKey_cons]
    · rw [if_neg he, containsKey_cons, containsKey_cons, ih]

/-! ### `addOpt` and `pushTo` lemmas -/

theorem addOpt_len_le (s : List (Option GTerm)) (x : Option GTerm) :
    s.length ≤ (addOpt s x).length := by
  rw [addOpt]
  split <;> simp

theorem addOpt_len_eq (s : List (Option GTerm)) (x : Option GTerm)
    (h : (addOpt s x).length = s.length) : addOpt s x = s ∧ x ∈ s := by
  rw [addOpt] at h ⊢
  by_cases hc : s.contains x = true
  · exact ⟨by rw [if_pos hc], by simpa using hc⟩
  · rw [if_neg hc] at h
    simp at h

theorem addOpt_mem_iff (s : List (Option GTerm)) (x y : Option GTerm) :
    y ∈ addOpt s x ↔ y ∈ s ∨ y = x := by
  rw [addOpt]
  by_cases hc : s.contains x = true
  · rw [if_pos hc]
    have hx : x ∈ s := by simpa using hc
    constructor
    · exact Or.inl
    · rintro (hy | rfl)
      · exact hy
      · exact hx
  · rw [if_neg hc]
    simp

theorem pushTo_other (lhs : String) (x : Option GTerm) (t : FirstTable)
    (n : String) (h : lhs ≠ n) :
    lookupTable (pushTo lhs x t) n = lookupTable t n :=
  lookupTable_update_other t lhs n _ h

theorem pushTo_self (lhs : String) (x : Option GTerm) (t : FirstTable)
    (h : ContainsKey t lhs) :
    lookupTable (pushTo lhs x t) lhs = addOpt (lookupTable t lhs) x :=
  lookupTable_update_self t lhs _ h

theorem pushTo_absent (lhs : String) (x : Option GTerm) (t : FirstTable)
    (h : ¬ ContainsKey t lhs) : pushTo lhs x t = t :=
  updateTable_absent t lhs _ h

theorem containsKey_pushTo (lhs : String) (x : Option GTerm) (t : FirstTable)
    (n : String) : ContainsKey (pushTo lhs x t) n ↔ ContainsKey t n :=
  containsKey_update t lhs _ n

theorem pushTo_len_le (lhs : String) (x : Option GTerm) (t : FirstTable) :
    (lookupTable t lhs).length ≤ (lookupTable (pushTo lhs x t) lhs).length := by
  by_cases h : ContainsKey t lhs
  · rw [pushTo_self lhs x t h]
    exact addOpt_len_le _ _
  · rw [pushTo_absent lhs x t h]

theorem pushTo_len_eq (lhs : String) (x : Option GTerm) (t : FirstTable)
    (h : (lookupTable (pushTo lhs x t) lhs).length = (lookupTable t lhs).length) :
    pushTo lhs x t = t ∧ (ContainsKey t lhs → x ∈ lookupTable t lhs) := by
  by_cases hk : ContainsKey t lhs
  · rw [pushTo_self lhs x t hk] at h
    obtain ⟨heq, hmem⟩ := addOpt_len_eq _ _ h
    constructor
    · rw [pushTo, heq, updateTable_self]
    · intro _; exact hmem
  · exact ⟨pushTo_absent lhs x t hk, fun hc => absurd hc hk⟩

theorem pushTo_mem (lhs : String) (x : Option GTerm) (t : FirstTable)
    (n : String) (y : Option GTerm) (hy : y ∈ lookupTable t n) :
    y ∈ lookupTable (pushTo lhs x t) n := by
  by_cases hn : lhs = n
  · subst hn
    by_cases hk : ContainsKey t lhs
    · rw [pushTo_self lhs x t hk, addOpt_mem_iff]
      exact Or.inl hy
    · rwa [pushTo_absent lhs x t hk]
  · rwa [pushTo_other lhs x t n hn]

/-- Pushing a `some` value never changes `null`-membership anywhere. -/
theorem pushTo_none_iff (lhs : String) (v : GTerm) (t : FirstTable) (n : String) :
    none ∈ lookupTable (pushTo lhs (some v) t) n ↔ none ∈ lookupTable t n := by
  by_cases hn : lhs = n
  · subst hn
    by_cases hk : ContainsKey t lhs
    · rw [pushTo_self lhs _ t hk, addOpt_mem_iff]
      simp
    · rw [pushTo_absent lhs _ t hk]
  · rw [pushTo_other lhs _ t n hn]

end Gen

namespace Gen

/-! ### `foldAdd` lemmas -/

theorem foldAdd_nil (lhs : String) (t : FirstTable) : foldAdd lhs t [] = t := rfl

theorem foldAdd_cons_none (lhs : String) (t : FirstTable)
    (opts : List (Option GTerm)) :
    foldAdd lhs t (none :: opts) = foldAdd lhs t opts := rfl

theorem foldAdd_cons_some (lhs : String) (t : FirstTable) (x : GTerm)
    (opts : List (Option GTerm)) :
    foldAdd lhs t (some x :: opts) = foldAdd lhs (pushTo lhs (some x) t) opts := rfl

theorem foldAdd_other (lhs : String) (opts : List (Option GTerm)) :
    ∀ (t : FirstTable) (n : String), lhs ≠ n →
      lookupTable (foldAdd lhs t opts) n = lookupTable t n := by
  induction opts with
  | nil => intro t n _; rfl
  | cons o opts ih =>
    intro t n hn
    cases o with
    | none => rw [foldAdd_cons_none, ih t n hn]
    | some x => rw [foldAdd_cons_some, ih _ n hn, pushTo_other _ _ _ _ hn]

theorem containsKey_foldAdd (lhs : String) (opts : List (Option GTerm)) :
    ∀ (t : FirstTable) (n : String),
      ContainsKey (foldAdd lhs t opts) n ↔ ContainsKey t n := by
  induction opts with
  | nil => intro t n; rfl
  | cons o opts ih =>
    intro t n
    cases o with
    | none => rw [foldAdd_cons_none, ih]
    | some x => rw [foldAdd_cons_some, ih, containsKey_pushTo]

theorem foldAdd_len_le (lhs : String) (opts : List (Option GTerm)) :
    ∀ t : FirstTable,
      (lookupTable t lhs).length ≤ (lookupTable (foldAdd lhs t opts) lhs).length := by
  induction opts with
  | nil => intro t; exact le_refl _
  | cons o opts ih =>
    intro t
    cases o with
    | none => rw [foldAdd_cons_none]; exact ih t
    | some x =>
      rw [foldAdd_cons_some]
      exact (pushTo_len_le lhs (some x) t).trans (ih _)

theorem foldAdd_none_iff (lhs : String) (opts : List (Option GTerm)) :
    ∀ (t : FirstTable) (n : String),
      none ∈ lookupTable (foldAdd lhs t opts) n ↔ none ∈ lookupTable t n := by
  induction opts with
  | nil => intro t n; rfl
  | cons o opts ih =>
    intro t n
    cases o with
    | none => rw [foldAdd_cons_none, ih]
    | some x => rw [foldAdd_cons_some, ih, pushTo_none_iff]

theorem foldAdd_mem (lhs : String) (opts : List (Option GTerm)) :
    ∀ (t : FirstTable) (n : String) (y : Option GTerm),
      y ∈ lookupTable t n → y ∈ lookupTable (foldAdd lhs t opts) n := by
  induction opts with
  | nil => intro t n y hy; exact hy
  | cons o opts ih =>
    intro t n y hy
    cases o with
    | none => rw [foldAdd_cons_none]; exact ih t n y hy
    | some x => rw [foldAdd_cons_some]; exact ih _ n y (pushTo_mem _ _ _ _ _ hy)

theorem foldAdd_len_eq (lhs : String) (opts : List (Option GTerm)) :
    ∀ t : FirstTable,
      (lookupTable (foldAdd lhs t opts) lhs).length = (lookupTable t lhs).length →
      foldAdd lhs t opts = t ∧
        (ContainsKey t lhs → ∀ x : GTerm, some x ∈ opts → some x ∈ lookupTable t lhs) := by
  induction opts with
  | nil =>
    intro t _
    exact ⟨rfl, fun _ x hx => absurd hx (List.not_mem_nil _)⟩
  | cons o opts ih =>
    intro t hlen
    cases o with
    | none =>
      rw [foldAdd_cons_none] at hlen ⊢
      obtain ⟨heq, hmem⟩ := ih t hlen
      refine ⟨heq, fun hk x hx => ?_⟩
      rcases List.mem_cons.mp hx with hx | hx
      · cases hx
      · exact hmem hk x hx
    | some v =>
      rw [foldAdd_cons_some] at hlen ⊢
      have h1 : (lookupTable t lhs).length ≤
          (lookupTable (pushTo lhs (some v) t) lhs).length := pushTo_len_le _ _ _
      have h2 : (lookupTable (pushTo lhs (some v) t) lhs).length ≤
          (lookupTable (foldAdd lhs (pushTo lhs (some v) t) opts) lhs).length :=
        foldAdd_len_le _ _ _
      have hpl : (lookupTable (pushTo lhs (some v) t) lhs).length =
          (lookupTable t lhs).length := by omega
      obtain ⟨hpe, hpin⟩ := pushTo_len_eq lhs (some v) t hpl
      rw [hpe] at hlen ⊢
      obtain ⟨heq, hmem⟩ := ih t hlen
      refine ⟨heq, fun hk x hx => ?_⟩
      rcases List.mem_cons.mp hx with hx | hx
      · cases hx; exact hpin hk
      · exact hmem hk x hx

end Gen

namespace Gen

/-! ### `ruleWalk` lemmas -/

theorem ruleWalk_nil (lhs : String) (t : FirstTable) :
    ruleWalk lhs t [] = (t, false) := rfl

theorem ruleWalk_cons_terminal (lhs : String) (t : FirstTable) (part : GTerm)
    (rest : List GTerm) (h : part.terminal = true) :
    ruleWalk lhs t (part :: rest) = (pushTo lhs (some part) t, true) := by
  simp only [ruleWalk, h, if_true]

theorem ruleWalk_cons_null (lhs : String) (t : FirstTable) (part : GTerm)
    (rest : List GTerm) (h : part.terminal = false)
    (hn : (lookupTable t part.name).contains none = true) :
    ruleWalk lhs t (part :: rest) =
      ruleWalk lhs (foldAdd lhs t (lookupTable t part.name)) rest := by
  simp only [ruleWalk, h, Bool.false_eq_true, if_false, hn, if_true]

theorem ruleWalk_cons_stop (lhs : String) (t : FirstTable) (part : GTerm)
    (rest : List GTerm) (h : part.terminal = false)
    (hn : (lookupTable t part.name).contains none = false) :
    ruleWalk lhs t (part :: rest) =
      (foldAdd lhs t (lookupTable t part.name), true) := by
  simp only [ruleWalk, h, Bool.false_eq_true, if_false, hn]

theorem ruleWalk_len_le (lhs : String) (parts : List GTerm) :
    ∀ t : FirstTable,
      (lookupTable t lhs).length ≤ (lookupTable (ruleWalk lhs t parts).1 lhs).length := by
  induction parts with
  | nil => intro t; exact le_refl _
  | cons part rest ih =>
    intro t
    by_cases hterm : part.terminal = true
    · rw [ruleWalk_cons_terminal lhs t part rest hterm]
      exact pushTo_len_le _ _ _
    · rw [Bool.not_eq_true] at hterm
      by_cases hn : (lookupTable t part.name).contains none = true
      · rw [ruleWalk_cons_null lhs t part rest hterm hn]
        exact (foldAdd_len_le _ _ _).trans (ih _)
      · rw [Bool.not_eq_true] at hn
        rw [ruleWalk_cons_stop lhs t part rest hterm hn]
        exact foldAdd_len_le _ _ _

theorem ruleWalk_none_iff (lhs : String) (parts : List GTerm) :
    ∀ (t : FirstTable) (n : String),
      none ∈ lookupTable (ruleWalk lhs t parts).1 n ↔ none ∈ lookupTable t n := by
  induction parts with
  | nil => intro t n; rfl
  | cons part rest ih =>
    intro t n
    by_cases hterm : part.terminal = true
    · rw [ruleWalk_cons_terminal lhs t part rest hterm]
      exact pushTo_none_iff _ _ _ _
    · rw [Bool.not_eq_true] at hterm
      by_cases hn : (lookupTable t part.name).contains none = true
      · rw [ruleWalk_cons_null lhs t part rest hterm hn, ih, foldAdd_none_iff]
      · rw [Bool.not_eq_true] at hn
        rw [ruleWalk_cons_stop lhs t part rest hterm hn]
        exact foldAdd_none_iff _ _ _ _

theorem containsKey_ruleWalk (lhs : String) (parts : List GTerm) :
    ∀ (t : FirstTable) (n : String),
      ContainsKey (ruleWalk lhs t parts).1 n ↔ ContainsKey t n := by
  induction parts with
  | nil => intro t n; rfl
  | cons part rest ih =>
    intro t n
    by_cases hterm : part.terminal = true
    · rw [ruleWalk_cons_terminal lhs t part rest hterm]
      exact containsKey_pushTo _ _ _ _
    · rw [Bool.not_eq_true] at hterm
      by_cases hn : (lookupTable t part.name).contains none = true
      · rw [ruleWalk_cons_null lhs t part rest hterm hn, ih, containsKey_foldAdd]
      · rw [Bool.not_eq_true] at hn
        rw [ruleWalk_cons_stop lhs t part rest hterm hn]
        exact containsKey_foldAdd _ _ _ _

/-- If every part is nullable according to the starting table, the walk
traverses all parts and ends with `found = false`. -/
theorem ruleWalk_nullprefix (lhs : String) (parts : List GTerm) :
    ∀ t : FirstTable, NullPrefix t parts → (ruleWalk lhs t parts).2 = false := by
  induction parts with
  | nil => intro t _; rfl
  | cons part rest ih =>
    intro t hnp
    obtain ⟨hterm, hnone⟩ := hnp part (List.mem_cons_self _ _)
    have hn : (lookupTable t part.name).contains none = true := by
      simpa using hnone
    rw [ruleWalk_cons_null lhs t part rest hterm hn]
    refine ih _ ?_
    intro p hp
    obtain ⟨h1, h2⟩ := hnp p (List.mem_cons_of_mem _ hp)
    exact ⟨h1, (foldAdd_none_iff _ _ _ _).mpr h2⟩

/-- Conversely, `found = false` means every part was a nullable
non-terminal, as judged by the starting table. -/
theorem ruleWalk_false_null (lhs : String) (parts : List GTerm) :
    ∀ t : FirstTable, (ruleWalk lhs t parts).2 = false → NullPrefix t parts := by
  induction parts with
  | nil => intro t _ p hp; exact absurd hp (List.not_mem_nil p)
  | cons part rest ih =>
    intro t hfalse
    by_cases hterm : part.terminal = true
    · rw [ruleWalk_cons_terminal lhs t part rest hterm] at hfalse
      cases hfalse
    · rw [Bool.not_eq_true] at hterm
      by_cases hn : (lookupTable t part.name).contains none = true
      · rw [ruleWalk_cons_null lhs t part rest hterm hn] at hfalse
        intro p hp
        rcases List.mem_cons.mp hp with rfl | hp
        · exact ⟨hterm, by simpa using hn⟩
        · obtain ⟨h1, h2⟩ := ih _ hfalse p hp
          exact ⟨h1, (foldAdd_none_iff _ _ _ _).mp h2⟩
      · rw [Bool.not_eq_true] at hn
        rw [ruleWalk_cons_stop lhs t part rest hterm hn] at hfalse
        cases hfalse

/-- A walk that did not grow the lhs set left the whole table unchanged. -/
theorem ruleWalk_const (lhs : String) (parts : List GTerm) :
    ∀ t : FirstTable,
      (lookupTable (ruleWalk lhs t parts).1 lhs).length = (lookupTable t lhs).length →
      (ruleWalk lhs t parts).1 = t := by
  induction parts with
  | nil => intro t _; rfl
  | cons part rest ih =>
    intro t hlen
    by_cases hterm : part.terminal = true
    · rw [ruleWalk_cons_terminal lhs t part rest hterm] at hlen ⊢
      exact (pushTo_len_eq _ _ _ hlen).1
    · rw [Bool.not_eq_true] at hterm
      by_cases hn : (lookupTable t part.name).contains none = true
      · rw [ruleWalk_cons_null lhs t part rest hterm hn] at hlen ⊢
        have h1 := foldAdd_len_le lhs (lookupTable t part.name) t
        have h2 := ruleWalk_len_le lhs rest (foldAdd lhs t (lookupTable t part.name))
        have hfl : (lookupTable (foldAdd lhs t (lookupTable t part.name)) lhs).length =
            (lookupTable t lhs).length := by omega
        have hfe := (foldAdd_len_eq lhs (lookupTable t part.name) t hfl).1
        rw [hfe] at hlen ⊢
        exact ih t hlen
      · rw [Bool.not_eq_true] at hn
        rw [ruleWalk_cons_stop lhs t part rest hterm hn] at hlen ⊢
        exact (foldAdd_len_eq _ _ _ hlen).1

end Gen

namespace Gen

/-- What a stable table knows at the stopping part of a rule walk: a
terminal part is in the lhs FIRST set; a non-terminal part's FIRST terminals
are all in the lhs FIRST set. -/
def PartFact (T : FirstTable) (lhs : String) (e : GTerm) : Prop :=
  if e.terminal = true then some e ∈ lookupTable T lhs
  else ∀ x : GTerm, some x ∈ lookupTable T e.name → some x ∈ lookupTable T lhs

/-- A walk that did not grow the lhs set certifies `PartFact` for every
part reachable through a nullable prefix. -/
theorem ruleWalk_facts (lhs : String) (parts : List GTerm) :
    ∀ t : FirstTable, ContainsKey t lhs →
      (lookupTable (ruleWalk lhs t parts).1 lhs).length = (lookupTable t lhs).length →
      ∀ γ e δ, parts = γ ++ e :: δ → NullPrefix t γ → PartFact t lhs e := by
  induction parts with
  | nil =>
    intro t _ _ γ e δ hsplit _
    exact absurd hsplit (by simp)
  | cons part rest ih =>
    intro t hkey hlen γ e δ hsplit hnp
    by_cases hterm : part.terminal = true
    · rw [ruleWalk_cons_terminal lhs t part rest hterm] at hlen
      obtain ⟨hpe, hpin⟩ := pushTo_len_eq _ _ _ hlen
      cases γ with
      | nil =>
        simp only [List.nil_append, List.cons.injEq] at hsplit
        obtain ⟨rfl, -⟩ := hsplit
        rw [PartFact, if_pos hterm]
        exact hpin hkey
      | cons g γ' =>
        simp only [List.cons_append, List.cons.injEq] at hsplit
        obtain ⟨rfl, -⟩ := hsplit
        obtain ⟨hg, -⟩ := hnp part (List.mem_cons_self _ _)
        rw [hterm] at hg
        cases hg
    · rw [Bool.not_eq_true] at hterm
      by_cases hn : (lookupTable t part.name).contains none = true
      · rw [ruleWalk_cons_null lhs t part rest hterm hn] at hlen
        have h1 := foldAdd_len_le lhs (lookupTable t part.name) t
        have h2 := ruleWalk_len_le lhs rest (foldAdd lhs t (lookupTable t part.name))
        have hfl : (lookupTable (foldAdd lhs t (lookupTable t part.name)) lhs).length =
            (lookupTable t lhs).length := by omega
        obtain ⟨hfe, hfmem⟩ := foldAdd_len_eq lhs (lookupTable t part.name) t hfl
        rw [hfe] at hlen
        cases γ with
        | nil =>
          simp only [List.nil_append, List.cons.injEq] at hsplit
          obtain ⟨rfl, -⟩ := hsplit
          rw [PartFact, if_neg (by rw [hterm]; exact Bool.false_ne_true)]
          intro x hx
          exact hfmem hkey x hx
        | cons g γ' =>
          simp only [List.cons_append, List.cons.injEq] at hsplit
          obtain ⟨rfl, hrest⟩ := hsplit
          exact ih t hkey hlen γ' e δ hrest
            (fun p hp => hnp p (List.mem_cons_of_mem _ hp))
      · rw [Bool.not_eq_true] at hn
        rw [ruleWalk_cons_stop lhs t part rest hterm hn] at hlen
        obtain ⟨hfe, hfmem⟩ := foldAdd_len_eq lhs (lookupTable t part.name) t hlen
        cases γ with
        | nil =>
          simp only [List.nil_append, List.cons.injEq] at hsplit
          obtain ⟨rfl, -⟩ := hsplit
          rw [PartFact, if_neg (by rw [hterm]; exact Bool.false_ne_true)]
          intro x hx
          exact hfmem hkey x hx
        | cons g γ' =>
          simp only [List.cons_append, List.cons.injEq] at hsplit
          obtain ⟨rfl, -⟩ := hsplit
          obtain ⟨-, hgnone⟩ := hnp part (List.mem_cons_self _ _)
          have : (lookupTable t part.name).contains none = true := by simpa using hgnone
          rw [this] at hn
          cases hn

/-- A rule step that reports no change leaves the table untouched. -/
theorem ruleStep_const (t : FirstTable) (r : GRule) :
    ∀ tout : FirstTable, ruleStep t r = (tout, false) → tout = t := by
  intro tout h
  rw [ruleStep] at h
  obtain ⟨hout, hflag⟩ := Prod.mk.injEq .. ▸ h
  set lhs := r.name.name with hlhs
  set wr := ruleWalk lhs t r.parts with hwr
  have hflag' : ¬ (lookupTable (if wr.2 then wr.1 else pushTo lhs none wr.1) lhs).length >
      (lookupTable t lhs).length := by
    intro hc
    rw [decide_eq_true hc] at hflag
    cases hflag
  have hw1 := ruleWalk_len_le lhs r.parts t
  rw [← hwr] at hw1
  by_cases hfound : wr.2 = true
  · rw [if_pos hfound] at hout hflag'
    have hlen : (lookupTable wr.1 lhs).length = (lookupTable t lhs).length := by omega
    rw [← hout]
    exact ruleWalk_const lhs r.parts t hlen
  · rw [Bool.not_eq_true] at hfound
    rw [hfound] at hout hflag'
    simp only [Bool.false_eq_true, if_false] at hout hflag'
    have hp := pushTo_len_le lhs none wr.1
    have hlen : (lookupTable wr.1 lhs).length = (lookupTable t lhs).length := by omega
    have hwc := ruleWalk_const lhs r.parts t hlen
    have hplen : (lookupTable (pushTo lhs none wr.1) lhs).length =
        (lookupTable wr.1 lhs).length := by omega
    rw [← hout, (pushTo_len_eq lhs none wr.1 hplen).1, hwc]

/-- The facts certified by a rule step that leaves the table unchanged. -/
theorem ruleStep_facts (t : FirstTable) (r : GRule)
    (hkey : ContainsKey t r.name.name)
    (h : ruleStep t r = (t, false)) :
    (∀ γ e δ, r.parts = γ ++ e :: δ → NullPrefix t γ → PartFact t r.name.name e) ∧
    (NullPrefix t r.parts → none ∈ lookupTable t r.name.name) := by
  rw [ruleStep] at h
  obtain ⟨hout, hflag⟩ := Prod.mk.injEq .. ▸ h
  set lhs := r.name.name with hlhs
  set wr := ruleWalk lhs t r.parts with hwr
  have hflag' : ¬ (lookupTable (if wr.2 then wr.1 else pushTo lhs none wr.1) lhs).length >
      (lookupTable t lhs).length := by
    intro hc
    rw [decide_eq_true hc] at hflag
    cases hflag
  have hw1 := ruleWalk_len_le lhs r.parts t
  rw [← hwr] at hw1
  have hwlen : (lookupTable wr.1 lhs).length = (lookupTable t lhs).length := by
    by_cases hfound : wr.2 = true
    · rw [if_pos hfound] at hflag'
      omega
    · rw [Bool.not_eq_true] at hfound
      rw [hfound] at hflag'
      simp only [Bool.false_eq_true, if_false] at hflag'
      have hp := pushTo_len_le lhs none wr.1
      omega
  constructor
  · exact ruleWalk_facts lhs r.parts t hkey hwlen
  · intro hnp
    have hfound : wr.2 = false := ruleWalk_nullprefix lhs r.parts t hnp
    rw [hfound] at hout hflag'
    simp only [Bool.false_eq_true, if_false] at hout hflag'
    have hwc := ruleWalk_const lhs r.parts t hwlen
    have hplen : (lookupTable (pushTo lhs none wr.1) lhs).length =
        (lookupTable wr.1 lhs).length := by
      have hp := pushTo_len_le lhs none wr.1
      omega
    have := (pushTo_len_eq lhs none wr.1 hplen).2
    rw [hwc] at this
    exact this hkey

end Gen

namespace Gen

/-! ### Fixpoint extraction -/

/-- A pass that reports no change processed every rule against the same
unchanged table. -/
theorem firstPass_fix (rules : List GRule) :
    ∀ (t tout : FirstTable) (b : Bool),
      rules.foldl (fun tc r => let sr := ruleStep tc.1 r; (sr.1, tc.2 || sr.2)) (t, b) =
        (tout, false) →
      b = false ∧ tout = t ∧ ∀ r ∈ rules, ruleStep t r = (t, false) := by
  induction rules with
  | nil =>
    intro t tout b h
    simp only [List.foldl_nil, Prod.mk.injEq] at h
    exact ⟨h.2, h.1.symm, fun r hr => absurd hr (List.not_mem_nil r)⟩
  | cons r rs ih =>
    intro t tout b h
    rw [List.foldl_cons] at h
    obtain ⟨hb, htout, hrest⟩ := ih _ _ _ h
    rcases Bool.or_eq_false_iff.mp hb with ⟨hb0, hs2⟩
    have hs1 : (ruleStep t r).1 = t := by
      refine ruleStep_const t r _ ?_
      rw [← hs2]
    subst hb0
    rw [hs1] at htout hrest
    refine ⟨rfl, htout, fun r' hr' => ?_⟩
    rcases List.mem_cons.mp hr' with rfl | hr'
    · rw [Prod.ext_iff]
      exact ⟨hs1, hs2⟩
    · exact hrest r' hr'

/-- The table returned by the fixpoint loop is a fixpoint: every rule step
on it reports no change and leaves it unchanged. -/
theorem firstIter_fix (rules : List GRule) :
    ∀ (fuel : Nat) (t T : FirstTable), firstIter rules fuel t = some T →
      ∀ r ∈ rules, ruleStep T r = (T, false) := by
  intro fuel
  induction fuel with
  | zero => intro t T h; cases h
  | succ fuel ih =>
    intro t T h
    rw [firstIter] at h
    by_cases hch : (firstPass rules t).2 = true
    · rw [if_pos hch] at h
      exact ih _ _ h
    · rw [Bool.not_eq_true] at hch
      rw [hch] at h
      simp only [Bool.false_eq_true, if_false, Option.some.injEq] at h
      have hp : firstPass rules t = ((firstPass rules t).1, false) := by
        rw [← hch]
      obtain ⟨-, hfix, hfacts⟩ := firstPass_fix rules t _ _ hp
      rw [← h, hfix]
      intro r hr
      exact hfacts r hr

/-- Keys survive the whole computation. -/
theorem containsKey_ruleStep (t : FirstTable) (r : GRule) (n : String) :
    ContainsKey (ruleStep t r).1 n ↔ ContainsKey t n := by
  rw [ruleStep]
  by_cases hfound : (ruleWalk r.name.name t r.parts).2 = true
  · simp only [hfound, if_true]
    exact containsKey_ruleWalk _ _ _ _
  · rw [Bool.not_eq_true] at hfound
    simp only [hfound, Bool.false_eq_true, if_false]
    rw [containsKey_pushTo]
    exact containsKey_ruleWalk _ _ _ _

theorem containsKey_firstPass (rules : List GRule) :
    ∀ (t : FirstTable) (b : Bool) (n : String),
      ContainsKey (rules.foldl
        (fun tc r => let sr := ruleStep tc.1 r; (sr.1, tc.2 || sr.2)) (t, b)).1 n ↔
      ContainsKey t n := by
  induction rules with
  | nil => intro t b n; rfl
  | cons r rs ih =>
    intro t b n
    rw [List.foldl_cons, ih, containsKey_ruleStep]

theorem containsKey_firstIter (rules : List GRule) :
    ∀ (fuel : Nat) (t T : FirstTable), firstIter rules fuel t = some T →
      ∀ n, ContainsKey T n ↔ ContainsKey t n := by
  intro fuel
  induction fuel with
  | zero => intro t T h; cases h
  | succ fuel ih =>
    intro t T h n
    rw [firstIter] at h
    by_cases hch : (firstPass rules t).2 = true
    · rw [if_pos hch] at h
      rw [ih _ _ h n]
      exact containsKey_firstPass rules t false n
    · rw [Bool.not_eq_true] at hch
      rw [hch] at h
      simp only [Bool.false_eq_true, if_false, Option.some.injEq] at h
      rw [← h]
      exact containsKey_firstPass rules t false n

theorem containsKey_init (nts : List GTerm) (N : GTerm) (h : N ∈ nts) :
    ContainsKey (nts.map (fun t => (t.name, ([] : List (Option GTerm))))) N.name := by
  induction nts with
  | nil => exact absurd h (List.not_mem_nil N)
  | cons a as ih =>
    rw [List.map_cons, containsKey_cons]
    rcases List.mem_cons.mp h with rfl | h
    · exact Or.inl rfl
    · exact Or.inr (ih h)

end Gen

namespace Gen

/-! ### Derivation helper lemmas -/

theorem derives_context (rules : List GRule) (pre post : List GTerm)
    {α β : List GTerm} (h : Derives rules α β) :
    Derives rules (pre ++ α ++ post) (pre ++ β ++ post) := by
  induction h with
  | refl => exact Relation.ReflTransGen.refl
  | tail hab hbc ih =>
    refine Relation.ReflTransGen.tail ih ?_
    cases hbc with
    | mk pre' post' r hr =>
      have h1 : pre ++ (pre' ++ [r.name] ++ post') ++ post =
          (pre ++ pre') ++ [r.name] ++ (post' ++ post) := by
        simp [List.append_assoc]
      have h2 : pre ++ (pre' ++ r.parts ++ post') ++ post =
          (pre ++ pre') ++ r.parts ++ (post' ++ post) := by
        simp [List.append_assoc]
      rw [h1, h2]
      exact DStep.mk (pre ++ pre') (post' ++ post) r hr

theorem derives_all_nil (rules : List GRule) :
    ∀ l : List GTerm, (∀ p ∈ l, Derives rules [p] []) → Derives rules l [] := by
  intro l
  induction l with
  | nil => intro _; exact Relation.ReflTransGen.refl
  | cons p rest ih =>
    intro h
    have h1 : Derives rules ([] ++ [p] ++ rest) ([] ++ [] ++ rest) :=
      derives_context rules [] rest (h p (List.mem_cons_self _ _))
    simp only [List.nil_append, List.append_nil] at h1
    exact Relation.ReflTransGen.trans h1 (ih fun q hq => h q (List.mem_cons_of_mem _ hq))

/-! ### `FirstIn` algebra -/

theorem FirstIn.append_left {T : FirstTable} {t : GTerm} {xs : List GTerm}
    (ys : List GTerm) (h : FirstIn T t xs) : FirstIn T t (xs ++ ys) := by
  induction h with
  | here e rest hor => exact FirstIn.here e (rest ++ ys) hor
  | there e rest hnull _ ih => exact FirstIn.there e (rest ++ ys) hnull ih

theorem FirstIn.append_right {T : FirstTable} {t : GTerm} (xs : List GTerm)
    {ys : List GTerm} (hnp : NullPrefix T xs) (h : FirstIn T t ys) :
    FirstIn T t (xs ++ ys) := by
  induction xs with
  | nil => exact h
  | cons x xs ih =>
    exact FirstIn.there x (xs ++ ys) (hnp x (List.mem_cons_self _ _))
      (ih fun p hp => hnp p (List.mem_cons_of_mem _ hp))

theorem FirstIn.append_cases {T : FirstTable} {t : GTerm} :
    ∀ (xs : List GTerm) {ys : List GTerm}, FirstIn T t (xs ++ ys) →
      FirstIn T t xs ∨ (NullPrefix T xs ∧ FirstIn T t ys) := by
  intro xs
  induction xs with
  | nil =>
    intro ys h
    exact Or.inr ⟨fun p hp => absurd hp (List.not_mem_nil p), h⟩
  | cons x xs ih =>
    intro ys h
    cases h with
    | here e rest hor => exact Or.inl (FirstIn.here x xs hor)
    | there e rest hnull h' =>
      rcases @ih ys h' with h'' | ⟨hnp, hys⟩
      · exact Or.inl (FirstIn.there x xs hnull h'')
      · refine Or.inr ⟨?_, hys⟩
        intro p hp
        rcases List.mem_cons.mp hp with rfl | hp
        · exact hnull
        · exact hnp p hp

/-- At a fixpoint table, a terminal reachable through a rule's parts is in
the lhs FIRST set. -/
theorem firstIn_rule (T : FirstTable) (lhs : String) (t : GTerm)
    (ht : t.terminal = true) {parts : List GTerm}
    (hfacts : ∀ γ e δ, parts = γ ++ e :: δ → NullPrefix T γ → PartFact T lhs e)
    (h : FirstIn T t parts) : some t ∈ lookupTable T lhs := by
  induction h with
  | here e rest hor =>
    have hf := hfacts [] e rest rfl (fun p hp => absurd hp (List.not_mem_nil p))
    rcases hor with rfl | ⟨hterm, hmem⟩
    · rw [PartFact, if_pos ht] at hf
      exact hf
    · rw [PartFact, if_neg (by rw [hterm]; exact Bool.false_ne_true)] at hf
      exact hf t hmem
  | there e rest hnull _ ih =>
    refine ih ?_
    intro γ e' δ hsplit hnp
    refine hfacts (e :: γ) e' δ (by rw [hsplit]; rfl) ?_
    intro p hp
    rcases List.mem_cons.mp hp with rfl | hp
    · exact hnull
    · exact hnp p hp

/-! ### Completeness of the FIRST fixpoint against derivations -/

/-- Everything a vanishing sentential form contains is a nullable
non-terminal according to the fixpoint table. -/
theorem derives_nil_null (rules : List GRule) (nts : List GTerm) (T : FirstTable)
    (hwf : WellFormedG rules nts)
    (hnullAll : ∀ r ∈ rules, NullPrefix T r.parts → none ∈ lookupTable T r.name.name)
    (α : List GTerm) (h : Derives rules α []) :
    ∀ p ∈ α, p.terminal = false ∧ none ∈ lookupTable T p.name := by
  induction h using Relation.ReflTransGen.head_induction_on with
  | refl => intro p hp; exact absurd hp (List.not_mem_nil p)
  | head hstep hder ih =>
    cases hstep with
    | mk pre post r hr =>
      intro p hp
      rcases List.mem_append.mp hp with hp' | hp'
      · rcases List.mem_append.mp hp' with hp'' | hp''
        · exact ih p (List.mem_append.mpr (Or.inl (List.mem_append.mpr (Or.inl hp''))))
        · have hpr : p = r.name := List.mem_singleton.mp hp''
          rw [hpr]
          have hmem : r.name ∈ nts := hwf.lhs_mem r hr
          refine ⟨hwf.nts_nonterminal r.name hmem, ?_⟩
          refine hnullAll r hr ?_
          intro q hq
          exact ih q (List.mem_append.mpr (Or.inl (List.mem_append.mpr (Or.inr hq))))
      · exact ih p (List.mem_append.mpr (Or.inr hp'))

/-- Every derivation reaching a first terminal `t` is reflected in the
fixpoint table as a `FirstIn` certificate. -/
theorem derives_firstIn (rules : List GRule) (nts : List GTerm) (T : FirstTable)
    (hwf : WellFormedG rules nts)
    (hfactsAll : ∀ r ∈ rules, ∀ γ e δ, r.parts = γ ++ e :: δ →
      NullPrefix T γ → PartFact T r.name.name e)
    (hnullAll : ∀ r ∈ rules, NullPrefix T r.parts → none ∈ lookupTable T r.name.name)
    (t : GTerm) (ht : t.terminal = true) (β : List GTerm)
    (α : List GTerm) (h : Derives rules α (t :: β)) : FirstIn T t α := by
  induction h using Relation.ReflTransGen.head_induction_on with
  | refl => exact FirstIn.here t β (Or.inl rfl)
  | head hstep hder ih =>
    cases hstep with
    | mk pre post r hr =>
      have hname : r.name.terminal = false := hwf.nts_nonterminal _ (hwf.lhs_mem r hr)
      rw [List.append_assoc] at ih
      rcases FirstIn.append_cases pre ih with hpre | ⟨hnpre, hin⟩
      · rw [List.append_assoc]
        exact FirstIn.append_left _ hpre
      · rcases FirstIn.append_cases r.parts hin with hparts | ⟨hnparts, hpost⟩
        · have hmem := firstIn_rule T r.name.name t ht (hfactsAll r hr) hparts
          rw [List.append_assoc]
          refine FirstIn.append_right pre hnpre ?_
          exact FirstIn.here r.name post (Or.inr ⟨hname, hmem⟩)
        · have hnone := hnullAll r hr hnparts
          rw [List.append_assoc]
          refine FirstIn.append_right pre hnpre ?_
          exact FirstIn.there r.name post ⟨hname, hnone⟩ hpost

end Gen

namespace Gen

/-! ### Soundness of the ε entries -/

/-- Every `null` entry of the table is justified by a real derivation of the
empty string. -/
def EpsSound (rules : List GRule) (nts : List GTerm) (T : FirstTable) : Prop :=
  ∀ N ∈ nts, none ∈ lookupTable T N.name → Derives rules [N] []

theorem epsSound_ruleStep (rules : List GRule) (nts : List GTerm)
    (hwf : WellFormedG rules nts) (t : FirstTable) (r : GRule) (hr : r ∈ rules)
    (hes : EpsSound rules nts t) : EpsSound rules nts (ruleStep t r).1 := by
  rw [ruleStep]
  by_cases hfound : (ruleWalk r.name.name t r.parts).2 = true
  · simp only [hfound, if_true]
    intro N hN hnone
    exact hes N hN ((ruleWalk_none_iff _ _ _ _).mp hnone)
  · rw [Bool.not_eq_true] at hfound
    simp only [hfound, Bool.false_eq_true, if_false]
    intro N hN hnone
    by_cases hname : r.name.name = N.name
    · have hNr : N = r.name := hwf.name_inj N hN r.name (hwf.lhs_mem r hr) hname.symm
      have hnp := ruleWalk_false_null r.name.name r.parts t hfound
      have hparts : Derives rules r.parts [] := by
        refine derives_all_nil rules r.parts (fun p hp => ?_)
        obtain ⟨hpt, hpn⟩ := hnp p hp
        exact hes p (hwf.parts_mem r hr p hp hpt) hpn
      have hstep : DStep rules [r.name] r.parts := by
        have h0 := DStep.mk [] [] r hr
        simpa using h0
      rw [hNr]
      exact Relation.ReflTransGen.trans (Relation.ReflTransGen.single hstep) hparts
    · have hmem : none ∈ lookupTable (ruleWalk r.name.name t r.parts).1 N.name := by
        rwa [pushTo_other _ _ _ _ hname] at hnone
      exact hes N hN ((ruleWalk_none_iff _ _ _ _).mp hmem)

theorem epsSound_firstPass (rules : List GRule) (nts : List GTerm)
    (hwf : WellFormedG rules nts) :
    ∀ (rs : List GRule), (∀ r ∈ rs, r ∈ rules) → ∀ (t : FirstTable) (b : Bool),
      EpsSound rules nts t →
      EpsSound rules nts
        (rs.foldl (fun tc r => let sr := ruleStep tc.1 r; (sr.1, tc.2 || sr.2)) (t, b)).1 := by
  intro rs
  induction rs with
  | nil => intro _ t b hes; exact hes
  | cons r rs ih =>
    intro hsub t b hes
    rw [List.foldl_cons]
    exact ih (fun r' hr' => hsub r' (List.mem_cons_of_mem _ hr'))
      _ _ (epsSound_ruleStep rules nts hwf t r (hsub r (List.mem_cons_self _ _)) hes)

theorem epsSound_firstIter (rules : List GRule) (nts : List GTerm)
    (hwf : WellFormedG rules nts) :
    ∀ (fuel : Nat) (t T : FirstTable), firstIter rules fuel t = some T →
      EpsSound rules nts t → EpsSound rules nts T := by
  intro fuel
  induction fuel with
  | zero => intro t T h; cases h
  | succ fuel ih =>
    intro t T h hes
    rw [firstIter] at h
    by_cases hch : (firstPass rules t).2 = true
    · rw [if_pos hch] at h
      exact ih _ _ h (epsSound_firstPass rules nts hwf rules (fun r hr => hr) t false hes)
    · rw [Bool.not_eq_true] at hch
      rw [hch] at h
      simp only [Bool.false_eq_true, if_false, Option.some.injEq] at h
      rw [← h]
      exact epsSound_firstPass rules nts hwf rules (fun r hr => hr) t false hes

theorem lookupTable_init (nts : List GTerm) (n : String) :
    lookupTable (nts.map (fun t => (t.name, ([] : List (Option GTerm))))) n = [] := by
  induction nts with
  | nil => rfl
  | cons a as ih =>
    rw [List.map_cons, lookupTable_cons]
    by_cases h : (a.name == n) = true
    · rw [if_pos h]
    · rw [Bool.not_eq_true] at h
      rw [h]
      simp only [Bool.false_eq_true, if_false]
      exact ih

/-- C3: the FIRST table computed by `computeFirst` is complete for first
terminals and exact for nullability: for every non-terminal `N` of the
grammar, every derivation `N ⇒* t β` with `t` a terminal puts `t` into the
computed FIRST(N), and the computed set contains the ε marker (`null`) if
and only if `N` derives the empty string. -/
theorem claim3_computeFirst_sound (rules : List GRule) (nts : List GTerm)
    (fuel : Nat) (T : FirstTable)
    (hrun : computeFirst rules nts fuel = some T)
    (hwf : WellFormedG rules nts) :
    (∀ N ∈ nts, ∀ (t : GTerm) (β : List GTerm), t.terminal = true →
      Derives rules [N] (t :: β) → some t ∈ lookupTable T N.name) ∧
    (∀ N ∈ nts, (none ∈ lookupTable T N.name ↔ Derives rules [N] [])) := by
  rw [computeFirst] at hrun
  have hfix := firstIter_fix rules fuel _ T hrun
  have hkeys : ∀ r ∈ rules, ContainsKey T r.name.name := by
    intro r hr
    rw [containsKey_firstIter rules fuel _ T hrun]
    exact containsKey_init nts r.name (hwf.lhs_mem r hr)
  have hfactsAll : ∀ r ∈ rules, ∀ γ e δ, r.parts = γ ++ e :: δ →
      NullPrefix T γ → PartFact T r.name.name e :=
    fun r hr => (ruleStep_facts T r (hkeys r hr) (hfix r hr)).1
  have hnullAll : ∀ r ∈ rules, NullPrefix T r.parts → none ∈ lookupTable T r.name.name :=
    fun r hr => (ruleStep_facts T r (hkeys r hr) (hfix r hr)).2
  have hes : EpsSound rules nts T := by
    refine epsSound_firstIter rules nts hwf fuel _ T hrun ?_
    intro N _ hnone
    rw [lookupTable_init] at hnone
    cases hnone
  constructor
  · intro N hN t β ht hder
    have hfi := derives_firstIn rules nts T hwf hfactsAll hnullAll t ht β [N] hder
    cases hfi with
    | here e rest hor =>
      rcases hor with rfl | ⟨-, hmem⟩
      · rw [hwf.nts_nonterminal _ hN] at ht
        cases ht
      · exact hmem
    | there e rest hnull h' => cases h'
  · intro N hN
    constructor
    · exact hes N hN
    · intro hder
      exact (derives_nil_null rules nts T hwf hnullAll [N] hder N
        (List.mem_singleton.mpr rfl)).2

/-- Witness for C3 on the grammar `S → a A`, `A → ε` (with `a` terminal):
the fixpoint computes FIRST(S) = {a}, FIRST(A) = {ε}; the theorem recovers
`a ∈ FIRST(S)` from the derivation `S ⇒ a A` and the derivation `A ⇒* ε`
from the ε marker. -/
theorem claim3_computeFirst_sound_witness :
    computeFirst [⟨⟨"S", 8, none⟩, [⟨"a", 1, none⟩, ⟨"A", 0, none⟩], []⟩,
        ⟨⟨"A", 0, none⟩, [], []⟩] [⟨"S", 8, none⟩, ⟨"A", 0, none⟩] 3 =
      some [("S", [some ⟨"a", 1, none⟩]), ("A", [none])] ∧
    some (⟨"a", 1, none⟩ : GTerm) ∈
      lookupTable [("S", [some ⟨"a", 1, none⟩]), ("A", [none])] "S" ∧
    Derives [⟨⟨"S", 8, none⟩, [⟨"a", 1, none⟩, ⟨"A", 0, none⟩], []⟩,
        ⟨⟨"A", 0, none⟩, [], []⟩] [⟨"A", 0, none⟩] [] := by
  have hrun : computeFirst [⟨⟨"S", 8, none⟩, [⟨"a", 1, none⟩, ⟨"A", 0, none⟩], []⟩,
      ⟨⟨"A", 0, none⟩, [], []⟩] [⟨"S", 8, none⟩, ⟨"A", 0, none⟩] 3 =
      some [("S", [some ⟨"a", 1, none⟩]), ("A", [none])] := by decide
  have hwf : WellFormedG [⟨⟨"S", 8, none⟩, [⟨"a", 1, none⟩, ⟨"A", 0, none⟩], []⟩,
      ⟨⟨"A", 0, none⟩, [], []⟩] [⟨"S", 8, none⟩, ⟨"A", 0, none⟩] := by
    constructor <;> decide
  have h := claim3_computeFirst_sound _ _ 3 _ hrun hwf
  refine ⟨hrun, ?_, ?_⟩
  · have hstep : DStep [⟨⟨"S", 8, none⟩, [⟨"a", 1, none⟩, ⟨"A", 0, none⟩], []⟩,
        ⟨⟨"A", 0, none⟩, [], []⟩] [⟨"S", 8, none⟩] [⟨"a", 1, none⟩, ⟨"A", 0, none⟩] := by
      have h0 : DStep [⟨⟨"S", 8, none⟩, [⟨"a", 1, none⟩, ⟨"A", 0, none⟩], []⟩,
          ⟨⟨"A", 0, none⟩, [], []⟩]
          ([] ++ [(⟨"S", 8, none⟩ : GTerm)] ++ [])
          ([] ++ [(⟨"a", 1, none⟩ : GTerm), ⟨"A", 0, none⟩] ++ []) :=
        DStep.mk [] [] ⟨⟨"S", 8, none⟩, [⟨"a", 1, none⟩, ⟨"A", 0, none⟩], []⟩ (by simp)
      simpa using h0
    exact h.1 ⟨"S", 8, none⟩ (by simp) ⟨"a", 1, none⟩ [⟨"A", 0, none⟩] (by decide)
      (Relation.ReflTransGen.single hstep)
  · exact (h.2 ⟨"A", 0, none⟩ (by simp)).mp (by decide)

end Gen

namespace Gen

/-! ## `invertRanges` (`src/build.ts`)

Character ranges are half-open `[a, b)` pairs of code points.
`MAX_CODE = 0x10ffff` as in the source. -/

def MAX_CODE : Nat := 0x10ffff

def invertAux : Nat → List (Nat × Nat) → List (Nat × Nat)
  | pos, [] => if pos ≤ MAX_CODE then [(pos, MAX_CODE + 1)] else []
  | pos, (a, b) :: rest => (if a > pos then [(pos, a)] else []) ++ invertAux b rest

/-- `invertRanges(ranges)`: walk the ranges left to right, emitting the gaps,
then the tail up to `MAX_CODE + 1`. -/
def invertRanges (ranges : List (Nat × Nat)) : List (Nat × Nat) :=
  invertAux 0 ranges

/-- Sorted, pairwise-disjoint, non-empty ranges bounded by `MAX_CODE + 1`
and starting at or after `lo` — the shape `addRange` plus the final sort in
set-expression parsing guarantees. -/
def chainedB : Nat → List (Nat × Nat) → Bool
  | _, [] => true
  | lo, (a, b) :: rest =>
    decide (lo ≤ a) && decide (a < b) && decide (b ≤ MAX_CODE + 1) && chainedB b rest

/-- A code point is covered by one of the ranges. -/
def covers (ranges : List (Nat × Nat)) (c : Nat) : Prop :=
  ∃ r ∈ ranges, r.1 ≤ c ∧ c < r.2

theorem chainedB_mono : ∀ (l : List (Nat × Nat)) (lo lo' : Nat), lo' ≤ lo →
    chainedB lo l = true → chainedB lo' l = true := by
  intro l lo lo' hle h
  cases l with
  | nil => rfl
  | cons r rest =>
    obtain ⟨a, b⟩ := r
    simp only [chainedB, Bool.and_eq_true, decide_eq_true_eq] at h ⊢
    exact ⟨⟨⟨by omega, h.1.1.2⟩, h.1.2⟩, h.2⟩

theorem covers_chained_lt : ∀ (l : List (Nat × Nat)) (lo c : Nat), c < lo →
    chainedB lo l = true → ¬ covers l c := by
  intro l
  induction l with
  | nil => intro lo c _ _ hc; obtain ⟨r, hr, -⟩ := hc; exact absurd hr (List.not_mem_nil r)
  | cons r rest ih =>
    intro lo c hc h hcov
    obtain ⟨a, b⟩ := r
    simp only [chainedB, Bool.and_eq_true, decide_eq_true_eq] at h
    obtain ⟨⟨⟨h1, h2⟩, h3⟩, h4⟩ := h
    obtain ⟨r', hr', hcv⟩ := hcov
    rcases List.mem_cons.mp hr' with rfl | hr'
    · simp only at hcv; omega
    · exact ih b c (by omega) h4 ⟨r', hr', hcv⟩

theorem invertAux_spec : ∀ (ranges : List (Nat × Nat)) (pos : Nat),
    chainedB pos ranges = true →
    chainedB pos (invertAux pos ranges) = true ∧
    (∀ c : Nat, covers (invertAux pos ranges) c ↔
      (pos ≤ c ∧ c ≤ MAX_CODE ∧ ¬ covers ranges c)) := by
  intro ranges
  induction ranges with
  | nil =>
    intro pos _
    rw [invertAux]
    by_cases hpos : pos ≤ MAX_CODE
    · rw [if_pos hpos]
      constructor
      · simp only [chainedB, Bool.and_eq_true, decide_eq_true_eq]
        exact ⟨⟨⟨le_refl _, by omega⟩, le_refl _⟩, by trivial⟩
      · intro c
        simp only [covers, List.mem_singleton]
        constructor
        · rintro ⟨r, rfl, h1, h2⟩
          refine ⟨h1, by omega, ?_⟩
          rintro ⟨r', hr', -⟩
          exact absurd hr' (List.not_mem_nil r')
        · rintro ⟨h1, h2, -⟩
          exact ⟨(pos, MAX_CODE + 1), rfl, h1, by omega⟩
    · rw [if_neg hpos]
      refine ⟨rfl, fun c => ?_⟩
      constructor
      · rintro ⟨r, hr, -⟩
        exact absurd hr (List.not_mem_nil r)
      · rintro ⟨h1, h2, -⟩
        omega
  | cons r rest ih =>
    intro pos hch
    obtain ⟨a, b⟩ := r
    simp only [chainedB, Bool.and_eq_true, decide_eq_true_eq] at hch
    obtain ⟨⟨⟨h1, h2⟩, h3⟩, h4⟩ := hch
    obtain ⟨ihc, ihcov⟩ := ih b h4
    rw [invertAux]
    constructor
    · by_cases hgap : a > pos
      · rw [if_pos hgap]
        simp only [List.cons_append, List.nil_append, chainedB, Bool.and_eq_true,
          decide_eq_true_eq]
        exact ⟨⟨⟨le_refl _, hgap⟩, by omega⟩, chainedB_mono _ b a (by omega) ihc⟩
      · rw [if_neg hgap, List.nil_append]
        exact chainedB_mono _ b pos (by omega) ihc
    · intro c
      have hrest : ∀ hc : c < b, ¬ covers rest c :=
        fun hc => covers_chained_lt rest b c hc h4
      have hcons : covers ((a, b) :: rest) c ↔ (a ≤ c ∧ c < b) ∨ covers rest c := by
        simp only [covers, List.mem_cons]
        constructor
        · rintro ⟨r', hr' | hr', hcv⟩
          · subst hr'; exact Or.inl hcv
          · exact Or.inr ⟨r', hr', hcv⟩
        · rintro (h | ⟨r', hr', hcv⟩)
          · exact ⟨(a, b), Or.inl rfl, h⟩
          · exact ⟨r', Or.inr hr', hcv⟩
      by_cases hgap : a > pos
      · rw [if_pos hgap]
        have hsplit : covers ((pos, a) :: invertAux b rest) c ↔
            (pos ≤ c ∧ c < a) ∨ covers (invertAux b rest) c := by
          simp only [covers, List.mem_cons]
          constructor
          · rintro ⟨r', hr' | hr', hcv⟩
            · subst hr'; exact Or.inl hcv
            · exact Or.inr ⟨r', hr', hcv⟩
          · rintro (h | ⟨r', hr', hcv⟩)
            · exact ⟨(pos, a), Or.inl rfl, h⟩
            · exact ⟨r', Or.inr hr', hcv⟩
        rw [List.cons_append, List.nil_append, hsplit, ihcov c, hcons]
        constructor
        · rintro (⟨hc1, hc2⟩ | ⟨hc1, hc2, hc3⟩)
          · refine ⟨hc1, by omega, ?_⟩
            rintro (h | h)
            · omega
            · exact hrest (by omega) h
          · refine ⟨by omega, hc2, ?_⟩
            rintro (h | h)
            · omega
            · exact hc3 h
        · rintro ⟨hc1, hc2, hc3⟩
          by_cases hca : c < a
          · exact Or.inl ⟨hc1, hca⟩
          · refine Or.inr ⟨?_, hc2, fun h => hc3 (Or.inr h)⟩
            by_contra hcb
            exact hc3 (Or.inl ⟨by omega, by omega⟩)
      · rw [if_neg hgap, List.nil_append, ihcov c, hcons]
        constructor
        · rintro ⟨hc1, hc2, hc3⟩
          refine ⟨by omega, hc2, ?_⟩
          rintro (h | h)
          · omega
          · exact hc3 h
        · rintro ⟨hc1, hc2, hc3⟩
          refine ⟨?_, hc2, fun h => hc3 (Or.inr h)⟩
          by_contra hcb
          exact hc3 (Or.inl ⟨by omega, by omega⟩)

/-- C10: for every list of character ranges that is sorted by start and
pairwise disjoint within `[0, 0x10FFFF + 1)` (as set-expression parsing
produces via `addRange` and the final sort), `invertRanges` returns a
sorted, pairwise-disjoint list of ranges covering exactly the code points
in `[0, 0x10FFFF]` that the input does not cover. -/
theorem claim10_invertRanges_complement (ranges : List (Nat × Nat))
    (h : chainedB 0 ranges = true) :
    chainedB 0 (invertRanges ranges) = true ∧
    (∀ c : Nat, covers (invertRanges ranges) c ↔
      (c ≤ MAX_CODE ∧ ¬ covers ranges c)) := by
  obtain ⟨h1, h2⟩ := invertAux_spec ranges 0 h
  refine ⟨h1, fun c => ?_⟩
  rw [invertRanges, h2 c]
  constructor
  · rintro ⟨-, hc2, hc3⟩; exact ⟨hc2, hc3⟩
  · rintro ⟨hc1, hc2⟩; exact ⟨Nat.zero_le c, hc1, hc2⟩

/-- Witness for C10 on the digit range `[48, 58)`: the complement is sorted
and e.g. code point 47 is covered by the inversion exactly because it is
not a digit. -/
theorem claim10_invertRanges_complement_witness :
    chainedB 0 (invertRanges [(48, 58)]) = true ∧
    (covers (invertRanges [(48, 58)]) 47 ↔ (47 ≤ MAX_CODE ∧ ¬ covers [(48, 58)] 47)) := by
  have h := claim10_invertRanges_complement [(48, 58)] (by decide)
  exact ⟨h.1, h.2 47⟩

end Gen

namespace Gen

/-! ## Forced reduce in `Builder.finishState` (`src/build.ts`, lines 405-412)

Modelled from the spec where the snapshot lacks the module: the item type of
the rewritten automaton (`src/automaton.ts`) and the numeric action flags
(the runtime constants module).  Only the fields `finishState` reads are
modelled: the dot position, the rule's id, length, top flag, repeat-leaf
flag, and whether the rule's lhs is the state's `partOfSkip` term. -/

structure BRule where
  lhsId : Nat
  lhsTop : Bool
  isRepeatLeaf : Bool
  isSkipLhs : Bool
  partsLen : Nat
deriving DecidableEq, Repr

structure BItem where
  rule : BRule
  pos : Nat
deriving DecidableEq, Repr

/-- Modelled from the spec: the action-encoding constants of the runtime's
constants module (absent from the snapshot); §4.6 fixes the layout
`lhsId | ReduceFlag | RepeatFlag? | StayFlag? | depth << ReduceDepthShift`. -/
def ReduceFlag : Nat := 2 ^ 16

def RepeatFlag : Nat := 2 ^ 17

def StayFlag : Nat := 2 ^ 18

def ReduceDepthShift : Nat := 19

/-- `reduceAction(rule, partOfSkip, depth)`. -/
def reduceAction (r : BRule) (depth : Nat) : Nat :=
  r.lhsId ||| ReduceFlag |||
    (if r.isRepeatLeaf && depth == r.partsLen then RepeatFlag else 0) |||
    (if r.isSkipLhs then StayFlag else 0) |||
    (depth <<< ReduceDepthShift)

/-- The comparison step of
`positions.reduce((a, b) => a.pos - b.pos || b.rule.parts.length - a.rule.parts.length < 0 ? b : a)`.
By JavaScript operator precedence the ternary condition is
`(a.pos - b.pos) || (b.rule.parts.length - a.rule.parts.length < 0)`: the
accumulator is replaced whenever the dot positions differ, or at equal dot
positions when the candidate's rule is strictly shorter. -/
def jsChoose (a b : BItem) : BItem :=
  if a.pos ≠ b.pos ∨ b.rule.partsLen < a.rule.partsLen then b else a

def reduceSel (a : BItem) (ps : List BItem) : BItem := ps.foldl jsChoose a

/-- The forced-reduce value written by `finishState`: 0 unless some item has
the dot past 0 and the selected item's rule is not the top rule. -/
def forcedReduce (set : List BItem) : Nat :=
  match set.filter (fun p => p.pos > 0) with
  | [] => 0
  | p :: ps =>
    let defaultPos := reduceSel p ps
    if defaultPos.rule.lhsTop = false then reduceAction defaultPos.rule defaultPos.pos
    else 0

/-- The selection the specification describes: smallest remaining suffix
(fewest parts after the dot), ties broken in favour of the longest rule. -/
def specChoose (a b : BItem) : BItem :=
  if b.rule.partsLen - b.pos < a.rule.partsLen - a.pos then b
  else if b.rule.partsLen - b.pos = a.rule.partsLen - a.pos ∧
      a.rule.partsLen < b.rule.partsLen then b
  else a

def specSel (a : BItem) (ps : List BItem) : BItem := ps.foldl specChoose a

/-- The forced-reduce value the specification sentence would compute. -/
def specForcedReduce (set : List BItem) : Nat :=
  match set.filter (fun p => p.pos > 0) with
  | [] => 0
  | p :: ps =>
    let defaultPos := specSel p ps
    if defaultPos.rule.lhsTop = false then reduceAction defaultPos.rule defaultPos.pos
    else 0

/-- The maximal trailing run of items sharing the final item's dot position,
computed left to right. -/
def trailingRunAux (acc : List BItem) (runPos : Nat) : List BItem → List BItem
  | [] => acc
  | x :: xs =>
    if x.pos = runPos then trailingRunAux (acc ++ [x]) runPos xs
    else trailingRunAux [x] x.pos xs

def trailingRun : List BItem → List BItem
  | [] => []
  | x :: xs => trailingRunAux [x] x.pos xs

/-- Keep the earlier item unless the later one has strictly fewer rule
parts: the first shortest-rule item of a run. -/
def firstShorter (a b : BItem) : BItem :=
  if b.rule.partsLen < a.rule.partsLen then b else a

def headFold : List BItem → BItem
  | [] => ⟨⟨0, false, false, false, 0⟩, 0⟩
  | x :: xs => xs.foldl firstShorter x

theorem trailingRunAux_ne_nil (ps : List BItem) :
    ∀ (acc : List BItem) (runPos : Nat), acc ≠ [] →
      trailingRunAux acc runPos ps ≠ [] := by
  induction ps with
  | nil => intro acc runPos h; exact h
  | cons x xs ih =>
    intro acc runPos h
    rw [trailingRunAux]
    by_cases hx : x.pos = runPos
    · rw [if_pos hx]
      exact ih _ _ (by simp)
    · rw [if_neg hx]
      exact ih _ _ (by simp)

/-- The fold of `finishState` computes the first shortest-rule item of the
maximal trailing equal-dot run. -/
theorem reduceSel_trailingRun (ps : List BItem) :
    ∀ (racc : List BItem) (a : BItem), racc ≠ [] → (∀ q ∈ racc, q.pos = a.pos) →
      a = headFold racc →
      ps.foldl jsChoose a = headFold (trailingRunAux racc a.pos ps) := by
  induction ps with
  | nil =>
    intro racc a _ _ ha
    exact ha
  | cons x xs ih =>
    intro racc a hne hpos ha
    rw [List.foldl_cons, trailingRunAux]
    by_cases hx : x.pos = a.pos
    · rw [if_pos hx]
      have hchoose : jsChoose a x = firstShorter a x := by
        rw [jsChoose, firstShorter]
        by_cases hlen : x.rule.partsLen < a.rule.partsLen
        · rw [if_pos (Or.inr hlen), if_pos hlen]
        · rw [if_neg ?_, if_neg hlen]
          rintro (hp | hl)
          · exact hp hx.symm
          · exact hlen hl
      have hfold : firstShorter a x = headFold (racc ++ [x]) := by
        obtain ⟨r0, rs, rfl⟩ : ∃ r0 rs, racc = r0 :: rs := by
          cases racc with
          | nil => exact absurd rfl hne
          | cons r0 rs => exact ⟨r0, rs, rfl⟩
        rw [headFold] at ha
        simp only [headFold, List.cons_append, List.foldl_append, List.foldl_cons,
          List.foldl_nil]
        rw [← ha]
      have hposx : (firstShorter a x).pos = a.pos := by
        rw [firstShorter]
        split
        · exact hx
        · rfl
      rw [hchoose, ← hposx]
      refine ih (racc ++ [x]) (firstShorter a x) (by simp) ?_ hfold
      intro q hq
      rcases List.mem_append.mp hq with hq | hq
      · rw [hposx]; exact hpos q hq
      · rw [List.mem_singleton.mp hq, hposx]; exact hx
    · rw [if_neg hx]
      have hchoose : jsChoose a x = x := by
        rw [jsChoose, if_pos (Or.inl (fun h => hx h.symm))]
      rw [hchoose]
      exact ih [x] x (by simp) (by simp) rfl

/-- C7 (amended): for every state whose item set contains an item with the
dot past position 0, the forced-reduce value encodes the reduction, at depth
equal to its dot position, of the item selected by `finishState`'s fold,
which is the first item with the fewest rule parts inside the maximal
trailing run of dot-advanced items sharing the final item's dot position —
provided that selected item's rule is not the top rule. -/
theorem claim7_forcedReduce_amended (set : List BItem) (p : BItem) (ps : List BItem)
    (hfilter : set.filter (fun q => q.pos > 0) = p :: ps)
    (htop : (headFold (trailingRun (p :: ps))).rule.lhsTop = false) :
    forcedReduce set =
      reduceAction (headFold (trailingRun (p :: ps))).rule
        (headFold (trailingRun (p :: ps))).pos ∧
    reduceSel p ps = headFold (trailingRun (p :: ps)) := by
  have hsel : reduceSel p ps = headFold (trailingRun (p :: ps)) := by
    rw [trailingRun, reduceSel]
    exact reduceSel_trailingRun ps [p] p (by simp) (by simp) rfl
  refine ⟨?_, hsel⟩
  rw [forcedReduce, hfilter]
  simp only [← hsel] at htop ⊢
  rw [if_pos htop, hsel]

/-- Counterexample to C7 as stated: in a state with items `A → x·` (rule
length 1, dot 1, remaining suffix 0) and `B → x y·z` (rule length 3, dot 2,
remaining suffix 1), the specification's selection picks `A → x·` but the
code's fold replaces the accumulator because the dot positions differ and
encodes the reduction of `B` at depth 2 instead. -/
theorem claim7_counterexample :
    forcedReduce [⟨⟨1, false, false, false, 1⟩, 1⟩, ⟨⟨2, false, false, false, 3⟩, 2⟩] =
      reduceAction ⟨2, false, false, false, 3⟩ 2 ∧
    specForcedReduce [⟨⟨1, false, false, false, 1⟩, 1⟩, ⟨⟨2, false, false, false, 3⟩, 2⟩] =
      reduceAction ⟨1, false, false, false, 1⟩ 1 ∧
    forcedReduce [⟨⟨1, false, false, false, 1⟩, 1⟩, ⟨⟨2, false, false, false, 3⟩, 2⟩] ≠
      specForcedReduce [⟨⟨1, false, false, false, 1⟩, 1⟩, ⟨⟨2, false, false, false, 3⟩, 2⟩] := by
  refine ⟨rfl, rfl, ?_⟩
  decide

/-- Witness for the amended C7 at the same concrete state. -/
theorem claim7_forcedReduce_amended_witness :
    ([⟨⟨1, false, false, false, 1⟩, 1⟩, ⟨⟨2, false, false, false, 3⟩, 2⟩] :
        List BItem).filter (fun q => q.pos > 0) =
      [⟨⟨1, false, false, false, 1⟩, 1⟩, ⟨⟨2, false, false, false, 3⟩, 2⟩] ∧
    forcedReduce [⟨⟨1, false, false, false, 1⟩, 1⟩, ⟨⟨2, false, false, false, 3⟩, 2⟩] =
      reduceAction
        (headFold (trailingRun [⟨⟨1, false, false, false, 1⟩, 1⟩,
          ⟨⟨2, false, false, false, 3⟩, 2⟩])).rule
        (headFold (trailingRun [⟨⟨1, false, false, false, 1⟩, 1⟩,
          ⟨⟨2, false, false, false, 3⟩, 2⟩])).pos := by
  refine ⟨by decide, ?_⟩
  exact (claim7_forcedReduce_amended _ _ _ (by decide) (by decide)).1

/-! ## `TokenSet.tokenizer` (`src/build.ts`, lines 1049-1056)

`compile()` and `toArray()` live in the token module, which is not under
the snapshot's `src/`; modelled from the spec, a compiled DFA start state
carries its accepting term list and the serialized data `toArray` yields. -/

structure CompiledState where
  accepting : List GTerm
  data : List Nat
deriving DecidableEq, Repr

/-- The single-quote character, to build the error message without literal
quotes in the source. -/
def sq : String := String.singleton (Char.ofNat 39)

def zeroLenMsg (name : String) : String :=
  "Grammar contains zero-length tokens (in " ++ sq ++ name ++ sq ++ ")"

/-- `TokenSet.tokenizer`: raise when the compiled start state accepts
(a token matches the empty string), naming the first offending token;
otherwise return the serialized data. -/
def tokenizer (startState : CompiledState) : Except String (List Nat) :=
  match startState.accepting with
  | [] => .ok startState.data
  | t :: _ => .error (zeroLenMsg t.name)

/-- C9: if the compiled tokenizer start state is itself accepting,
`TokenSet.tokenizer` raises a fatal error whose message names the offending
token (the first accepting term); otherwise it returns the serialized
tokenizer data without error. -/
theorem claim9_tokenizer_zero_length (s : CompiledState) :
    (s.accepting = [] → tokenizer s = .ok s.data) ∧
    (∀ t rest, s.accepting = t :: rest →
      tokenizer s = .error (zeroLenMsg t.name)) := by
  constructor
  · intro h
    rw [tokenizer, h]
  · intro t rest h
    rw [tokenizer, h]

/-- Witness for C9: a non-accepting start state serializes; a start state
accepting token `sp` raises the error naming `sp`. -/
theorem claim9_tokenizer_zero_length_witness :
    tokenizer ⟨[], [7, 9]⟩ = .ok [7, 9] ∧
    tokenizer ⟨[⟨"sp", 1, none⟩], []⟩ = .error (zeroLenMsg "sp") := by
  exact ⟨(claim9_tokenizer_zero_length ⟨[], [7, 9]⟩).1 rfl,
    (claim9_tokenizer_zero_length ⟨[⟨"sp", 1, none⟩], []⟩).2 ⟨"sp", 1, none⟩ [] rfl⟩

end Gen

namespace Gen

/-! ## `inlineRules` selection (`src/build.ts`, lines 1326-1365)

The rewritten grammar module (`src/grammar.ts`) is not under the snapshot's
`src/`; its `Rule` (lhs term, parts, per-position conflicts, skip term) and
`Term.interesting` are modelled from the spec, which equates "interesting"
with carrying a tag.  The per-position conflicts are not read by the
selection loop and are omitted from the model. -/

structure NTerm where
  name : String
  tag : Option String := none
deriving DecidableEq, Repr

/-- Modelled from the spec: a term is "interesting" when it is tagged. -/
def NTerm.interesting (t : NTerm) : Bool := t.tag.isSome

structure NRule where
  name : NTerm
  parts : List NTerm
  skip : NTerm
deriving DecidableEq, Repr

/-- The selection condition of `inlineRules`' first loop for the rule at
index `i`, given the names already selected in this pass (`selNames`):
not interesting, no direct self-recursion, fewer than 3 parts, not
preserved, (length 1 or every rule that uses the lhs has the same skip),
no part already selected, and no other rule with the same lhs. -/
def inlinableCond (rules : List NRule) (preserve : List NTerm)
    (selNames : List String) (i : Nat) (rule : NRule) : Bool :=
  !rule.name.interesting && !(rule.parts.contains rule.name) &&
  decide (rule.parts.length < 3) && !(preserve.contains rule.name) &&
  (rule.parts.length == 1 ||
    rules.all (fun other => other.skip == rule.skip || !(other.parts.contains rule.name))) &&
  !(rule.parts.any (fun p => selNames.contains p.name)) &&
  !(rules.enum.any (fun jr => jr.1 != i && jr.2.name == rule.name))

def selGo (rules : List NRule) (preserve : List NTerm) :
    List (Nat × NRule) → List NRule → List NRule
  | [], sel => sel
  | (i, rule) :: rest, sel =>
    if inlinableCond rules preserve (sel.map (fun q => q.name.name)) i rule
    then selGo rules preserve rest (sel ++ [rule])
    else selGo rules preserve rest sel

/-- The rules one pass of `inlineRules` selects as inlinable, in scan
order. -/
def inlinableSelect (rules : List NRule) (preserve : List NTerm) : List NRule :=
  selGo rules preserve rules.enum []

/-- The selection condition as claim C6 words it: not tagged, no direct
self-recursion, body shorter than 3 terms, not preserved, and (length 1 or
no other rule under the same skip uses the lhs). -/
def claimInlinable (rules : List NRule) (preserve : List NTerm) (rule : NRule) : Bool :=
  !rule.name.interesting && !(rule.parts.contains rule.name) &&
  decide (rule.parts.length < 3) && !(preserve.contains rule.name) &&
  (rule.parts.length == 1 ||
    !(rules.any (fun other => other != rule && other.skip == rule.skip &&
        other.parts.contains rule.name)))

theorem selGo_mem (rules : List NRule) (preserve : List NTerm) :
    ∀ (l : List (Nat × NRule)) (sel : List NRule) (r : NRule),
      r ∈ selGo rules preserve l sel ↔
        r ∈ sel ∨ ∃ l₁ i l₂, l = l₁ ++ (i, r) :: l₂ ∧
          inlinableCond rules preserve
            ((selGo rules preserve l₁ sel).map (fun q => q.name.name)) i r = true := by
  intro l
  induction l with
  | nil =>
    intro sel r
    simp only [selGo]
    constructor
    · exact Or.inl
    · rintro (h | ⟨l₁, i, l₂, hsplit, -⟩)
      · exact h
      · exact absurd hsplit (by simp)
  | cons p rest ih =>
    obtain ⟨i, rule⟩ := p
    intro sel r
    rw [selGo]
    by_cases hcond : inlinableCond rules preserve (sel.map (fun q => q.name.name)) i rule = true
    · rw [if_pos hcond, ih]
      constructor
      · rintro (hmem | ⟨l₁, i', l₂, hsplit, hc⟩)
        · rcases List.mem_append.mp hmem with hmem | hmem
          · exact Or.inl hmem
          · refine Or.inr ⟨[], i, rest, ?_, ?_⟩
            · rw [List.mem_singleton.mp hmem]; rfl
            · rw [List.mem_singleton.mp hmem]
              simpa [selGo] using hcond
        · refine Or.inr ⟨(i, rule) :: l₁, i', l₂, by rw [hsplit]; rfl, ?_⟩
          rw [selGo, if_pos hcond]
          exact hc
      · rintro (hmem | ⟨l₁, i', l₂, hsplit, hc⟩)
        · exact Or.inl (List.mem_append.mpr (Or.inl hmem))
        · cases l₁ with
          | nil =>
            simp only [List.nil_append, List.cons.injEq, Prod.mk.injEq] at hsplit
            obtain ⟨⟨-, rfl⟩, -⟩ := hsplit
            exact Or.inl (List.mem_append.mpr (Or.inr (List.mem_singleton.mpr rfl)))
          | cons q l₁ =>
            simp only [List.cons_append, List.cons.injEq] at hsplit
            obtain ⟨rfl, hrest⟩ := hsplit
            refine Or.inr ⟨l₁, i', l₂, hrest, ?_⟩
            rw [selGo, if_pos hcond] at hc
            exact hc
    · rw [if_neg hcond, ih]
      constructor
      · rintro (hmem | ⟨l₁, i', l₂, hsplit, hc⟩)
        · exact Or.inl hmem
        · refine Or.inr ⟨(i, rule) :: l₁, i', l₂, by rw [hsplit]; rfl, ?_⟩
          rw [selGo, if_neg hcond]
          exact hc
      · rintro (hmem | ⟨l₁, i', l₂, hsplit, hc⟩)
        · exact Or.inl hmem
        · cases l₁ with
          | nil =>
            simp only [List.nil_append, List.cons.injEq, Prod.mk.injEq] at hsplit
            obtain ⟨⟨rfl, rfl⟩, rfl⟩ := hsplit
            rw [show selGo rules preserve [] sel = sel from rfl] at hc
            exact absurd hc hcond
          | cons q l₁ =>
            simp only [List.cons_append, List.cons.injEq] at hsplit
            obtain ⟨rfl, hrest⟩ := hsplit
            refine Or.inr ⟨l₁, i', l₂, hrest, ?_⟩
            rw [selGo, if_neg hcond] at hc
            exact hc

/-- C6 (amended): a pass of `inlineRules` selects a rule exactly when it
occurs at some index `i` of the rule list and, for the names selected over
the prefix before `i`, the full condition of the code holds: the lhs is not
tagged, the rule does not directly self-recurse, its body has fewer than 3
terms, the lhs is not preserved, either the body has length 1 or every rule
that uses the lhs lives under the same skip (i.e. no rule under a
*different* skip uses it), none of its parts is the lhs of a rule selected
earlier in the pass, and it is the only rule for its lhs. -/
theorem claim6_inlineRules_selection_amended (rules : List NRule)
    (preserve : List NTerm) (r : NRule) :
    r ∈ inlinableSelect rules preserve ↔
      ∃ l₁ i l₂, rules.enum = l₁ ++ (i, r) :: l₂ ∧
        inlinableCond rules preserve
          ((selGo rules preserve l₁ []).map (fun q => q.name.name)) i r = true := by
  rw [inlinableSelect, selGo_mem]
  constructor
  · rintro (h | h)
    · exact absurd h (List.not_mem_nil r)
    · exact h
  · exact Or.inr

/-- Counterexample to C6 as stated: with `A → x y` under skip `s1` and
`B → A` under a different skip `s2`, the claim's condition holds for the
`A` rule (no other rule under the *same* skip uses `A`), yet the code does
not select it, because a rule under a *different* skip uses `A`. -/
theorem claim6_counterexample :
    claimInlinable
        [⟨⟨"A", none⟩, [⟨"x", none⟩, ⟨"y", none⟩], ⟨"s1", none⟩⟩,
         ⟨⟨"B", none⟩, [⟨"A", none⟩], ⟨"s2", none⟩⟩] []
        ⟨⟨"A", none⟩, [⟨"x", none⟩, ⟨"y", none⟩], ⟨"s1", none⟩⟩ = true ∧
    ⟨⟨"A", none⟩, [⟨"x", none⟩, ⟨"y", none⟩], ⟨"s1", none⟩⟩ ∉
      inlinableSelect
        [⟨⟨"A", none⟩, [⟨"x", none⟩, ⟨"y", none⟩], ⟨"s1", none⟩⟩,
         ⟨⟨"B", none⟩, [⟨"A", none⟩], ⟨"s2", none⟩⟩] [] ∧
    inlinableSelect
        [⟨⟨"A", none⟩, [⟨"x", none⟩, ⟨"y", none⟩], ⟨"s1", none⟩⟩,
         ⟨⟨"B", none⟩, [⟨"A", none⟩], ⟨"s2", none⟩⟩] [] =
      [⟨⟨"B", none⟩, [⟨"A", none⟩], ⟨"s2", none⟩⟩] := by
  refine ⟨by decide, ?_, by decide⟩
  decide

/-- Witness for the amended C6: on the single rule `B → A` (length 1,
untagged, not preserved) the characterization certifies selection at
index 0. -/
theorem claim6_inlineRules_selection_amended_witness :
    ⟨⟨"B", none⟩, [⟨"A", none⟩], ⟨"s", none⟩⟩ ∈
      inlinableSelect [⟨⟨"B", none⟩, [⟨"A", none⟩], ⟨"s", none⟩⟩] [] :=
  (claim6_inlineRules_selection_amended
      [⟨⟨"B", none⟩, [⟨"A", none⟩], ⟨"s", none⟩⟩] []
      ⟨⟨"B", none⟩, [⟨"A", none⟩], ⟨"s", none⟩⟩).mpr
    ⟨[], 0, [], by decide, by decide⟩

end Gen

namespace Gen

/-! ## LALR collapse (`collapseAutomaton`, `mergeState`, `markConflicts`,
`hasConflict` in `src/grammar/automaton.ts`, lines 229-289)

States are identified by their index in the state array (`State.id` always
equals the index, and `Shift.eq` compares target object identity, which for
states in one array coincides with index equality).  `Shift.map` rewrites a
shift's target to `states[mapping[target.id]]`; on index-identified states
that is the index `mapping[target.id]`.  The `conflicts` array is kept flat
exactly as in the source: `markConflicts` pushes pairs `i, j` and
`hasConflict` recovers the partner of a hit by index parity.  The outer
`for (;;)` is modelled by a fuel counter; one body iteration is
`collapseStep`, which either returns the new state list (`Sum.inl`) or
restarts with the updated `conflicts` (`Sum.inr`). -/

structure CState where
  set : List Pos
  terminals : List Entry
  ambiguous : Bool
  goto : List (GTerm × Nat)
deriving DecidableEq, Repr

def emptyCState : CState := ⟨[], [], false, []⟩

/-- `Action.map(mapping, states)`: a shift is retargeted to
`states[mapping[target.id]]`, a reduce is returned unchanged. -/
def mapAction (mapping : List Nat) : Action → Action
  | .shift t target => .shift t (mapping.getD target 0)
  | .reduce t r => .reduce t r

/-- The terminal-merging loop of `mergeState`: each of the source state's
actions is mapped and added to the target with `addAction` (no reporting
position).  The target is mutated by every call, including a failing one;
on failure the loop stops and reports `false`. -/
def mergeTerminals (mapping : List Nat) : List Entry → CState → Bool × CState
  | [], target => (true, target)
  | (a, pr) :: rest, target =>
    let r := addAction target.terminals target.ambiguous (mapAction mapping a) pr false
    let target := { target with terminals := r.terminals, ambiguous := r.ambiguous }
    if r.success then mergeTerminals mapping rest target
    else (false, target)

/-- The goto-merging loop of `mergeState`: a goto is appended (mapped)
unless the target already has one for the same term. -/
def mergeGoto (mapping : List Nat) (src : List (GTerm × Nat))
    (target : List (GTerm × Nat)) : List (GTerm × Nat) :=
  src.foldl
    (fun tg g => if tg.any (fun a => a.1 == g.1) then tg
      else tg ++ [(g.1, mapping.getD g.2 0)])
    target

/-- `mergeState`: merge `state`'s actions and gotos into `target`; `false`
if some action conflicts.  Gotos are only merged when all actions merged. -/
def mergeState (mapping : List Nat) (state target : CState) : Bool × CState :=
  let r := mergeTerminals mapping state.terminals target
  if r.1 then (true, { r.2 with goto := mergeGoto mapping state.goto r.2.goto })
  else (false, r.2)

/-- `markConflicts`: for every ordered pair of old states mapped to `newID`,
replay both into a fresh dummy state; if the second replay fails, push the
pair `i, j` onto the flat conflicts array. -/
def markConflicts (mapping : List Nat) (newID : Nat) (oldStates : List CState)
    (conflicts : List Nat) : List Nat :=
  (List.range mapping.length).foldl
    (fun cs i =>
      if mapping.get? i == some newID then
        (List.range mapping.length).foldl
          (fun cs j =>
            if j ≠ i ∧ mapping.get? j == some newID then
              let d1 := (mergeState mapping (oldStates.getD i emptyCState) emptyCState).2
              if (mergeState mapping (oldStates.getD j emptyCState) d1).1 then cs
              else cs ++ [i, j]
            else cs)
          cs
      else cs)
    conflicts

/-- `hasConflict`: old state `id` may not join the partition `newID` if the
flat conflicts array records a pair containing `id` whose other side is
already mapped to `newID`.  (`mapping` is still being built, so the other
side may not be mapped yet; in the source the out-of-bounds read yields
`undefined`, which compares unequal.) -/
def hasConflict (id newID : Nat) (mapping : List Nat) (conflicts : List Nat) : Bool :=
  conflicts.enum.any fun ip =>
    ip.2 == id &&
      (match conflicts.get? (if ip.1 % 2 == 1 then ip.1 - 1 else ip.1 + 1) with
       | some other =>
         match mapping.get? other with
         | some v => v == newID
         | none => false
       | none => false)

/-- The per-state dedup of the partition loop: keep each item whose
`cmpSimple` key was not seen before. -/
def dedupSimple (set : List Pos) : List Pos :=
  set.foldl
    (fun acc pos => if acc.any (fun p => p.cmpSimple pos == 0) then acc else acc ++ [pos])
    []

/-- `newStates.findIndex(...)`: first new state with the same simple-compare
item set that old state `i` has no recorded conflict with. -/
def findNewID (i : Nat) (mapping : List Nat) (conflicts : List Nat)
    (newStates : List CState) (set : List Pos) : Option Nat :=
  (newStates.enum.find? fun sp =>
      cmpSet Pos.cmpSimple sp.2.set set == 0 && !hasConflict i sp.1 mapping conflicts).map
    (fun sp => sp.1)

/-- The partition loop: assign every old state to a new state (creating one
from its deduplicated item set when none is usable), building `mapping`. -/
def partitionPass (states : List CState) (conflicts : List Nat) :
    List CState × List Nat :=
  states.enum.foldl
    (fun acc ip =>
      let set := dedupSimple ip.2.set
      match findNewID ip.1 acc.2 conflicts acc.1 set with
      | some id => (acc.1, acc.2 ++ [id])
      | none => (acc.1 ++ [⟨set, [], false, []⟩], acc.2 ++ [acc.1.length]))
    ([], [])

/-- The merge loop: fold the old states into their assigned new states,
skipping partitions already known to conflict; on a failed merge record the
partition and run `markConflicts`.  Returns the new states, the
`conflicting` list, and the updated conflicts array. -/
def mergeLoop (oldStates : List CState) (mapping : List Nat) :
    List Nat → List CState → List Nat → List Nat →
      List CState × List Nat × List Nat
  | [], newStates, conflicting, conflicts => (newStates, conflicting, conflicts)
  | i :: rest, newStates, conflicting, conflicts =>
    let newID := mapping.getD i 0
    if conflicting.contains newID then
      mergeLoop oldStates mapping rest newStates conflicting conflicts
    else
      let r := mergeState mapping (oldStates.getD i emptyCState)
        (newStates.getD newID emptyCState)
      let newStates := newStates.set newID r.2
      if r.1 then mergeLoop oldStates mapping rest newStates conflicting conflicts
      else
        mergeLoop oldStates mapping rest newStates (conflicting ++ [newID])
          (markConflicts mapping newID oldStates conflicts)

/-- One iteration of `collapseAutomaton`'s `for (;;)` body: `Sum.inl` is the
`return newStates`, `Sum.inr` the restart with the grown conflicts array. -/
def collapseStep (states : List CState) (conflicts : List Nat) :
    List CState ⊕ List Nat :=
  let pm := partitionPass states conflicts
  let r := mergeLoop states pm.2 (List.range states.length) pm.1 [] conflicts
  if r.2.1.isEmpty then Sum.inl r.1 else Sum.inr r.2.2

/-- `collapseAutomaton` with an explicit iteration budget: `none` means the
budget ran out before the loop returned. -/
def collapseFuel : Nat → List CState → List Nat → Option (List CState)
  | 0, _, _ => none
  | fuel + 1, states, conflicts =>
    match collapseStep states conflicts with
    | Sum.inl done => some done
    | Sum.inr c => collapseFuel fuel states c

/-- The three-state input below makes `collapseAutomaton` loop forever.  All
three states share one item core (so they always land in one partition) and
act on the single terminal `t`. -/
def exTerm : GTerm := ⟨"t", 1, none⟩

def exItem : Pos := ⟨⟨⟨"S", 0, none⟩, [⟨"x", 1, none⟩], []⟩, 1, exTerm, []⟩

def exR0 : GRule := ⟨⟨"R0", 0, none⟩, [], []⟩

def exR1 : GRule := ⟨⟨"R1", 0, none⟩, [], []⟩

def exR2 : GRule := ⟨⟨"R2", 0, none⟩, [], []⟩

def exStates : List CState :=
  [⟨[exItem],
    [(.reduce exTerm exR0, [⟨none, "a", 4⟩, ⟨none, "b", 1⟩, ⟨none, "ge", 9⟩]),
     (.shift exTerm 0, [⟨none, "ge", -1⟩])],
    true, []⟩,
   ⟨[exItem], [(.reduce exTerm exR1, [⟨none, "a", 1⟩, ⟨none, "ge", 5⟩, ⟨none, "c", 2⟩])],
    false, []⟩,
   ⟨[exItem], [(.reduce exTerm exR2, [⟨none, "b", 7⟩, ⟨none, "c", 3⟩])],
    false, []⟩]

/-- Counterexample to C2: on `exStates` the cumulative merge of the single
partition fails (state 2's reduce falls through against the intentional
shift left by states 0 and 1), yet every ordered pairwise dummy replay in
`markConflicts` succeeds, so no conflict is recorded: the iteration restarts
with the conflicts array unchanged, the partition is not refined, and
`collapseAutomaton` never terminates, whatever the budget. -/
theorem claim2_counterexample :
    collapseStep exStates [] = Sum.inr [] ∧
      ∀ fuel, collapseFuel fuel exStates [] = none := by
  have h : collapseStep exStates [] = Sum.inr [] := by decide
  refine ⟨h, ?_⟩
  intro fuel
  induction fuel with
  | zero => rfl
  | succ n ih =>
    have hstep : collapseFuel (n + 1) exStates [] = collapseFuel n exStates [] := by
      simp only [collapseFuel, h]
    rw [hstep]
    exact ih

/-- C2 (amended): `collapseAutomaton` does not terminate on every finite
state list — a restart need not refine the partition (see the
counterexample).  It does terminate whenever every restart strictly grows
the recorded conflicts array under a fixed bound `B`: then `B + 1` loop
iterations suffice. -/
theorem claim2_collapse_termination_amended (states : List CState) (B : Nat)
    (hgrow : ∀ c d : List Nat, collapseStep states c = Sum.inr d →
      c.length < d.length ∧ d.length ≤ B) :
    ∃ result, collapseFuel (B + 1) states [] = some result := by
  suffices h : ∀ k (c : List Nat), B + 1 ≤ c.length + k → 1 ≤ k →
      ∃ r, collapseFuel k states c = some r by
    exact h (B + 1) [] (by simp) (by omega)
  intro k
  induction k with
  | zero =>
    intro c _ h1
    exact absurd h1 (by omega)
  | succ k ih =>
    intro c hlen _
    rcases hstep : collapseStep states c with r | d
    · refine ⟨r, ?_⟩
      simp only [collapseFuel, hstep]
    · obtain ⟨hlt, hle⟩ := hgrow c d hstep
      rcases Nat.eq_zero_or_pos k with rfl | hk
      · exact absurd hle (by omega)
      · obtain ⟨r, hr⟩ := ih d (by omega) hk
        refine ⟨r, ?_⟩
        simp only [collapseFuel, hstep]
        exact hr

/-- Witness for the amended C2: the empty state list satisfies the growth
hypothesis vacuously (its `collapseStep` always returns) and collapses in
one iteration. -/
theorem claim2_collapse_termination_amended_witness :
    ∃ result, collapseFuel 1 ([] : List CState) [] = some result :=
  claim2_collapse_termination_amended [] 0
    (fun c d h => by
      rw [show collapseStep ([] : List CState) c = Sum.inl [] from rfl] at h
      exact absurd h (by simp))

end Gen
